import Mathlib

/-!
# cosmo: succinct de Bruijn graph (BOSS) query operations

A shallow embedding of `debruijn_graph_shifted.hpp`.

* The succinct library (sdsl) is modelled by its documented contract: `rank(i, c)` counts
  the occurrences of `c` in the prefix `[0, i)` and requires `i ≤ size`; `select(r, c)` is the
  position of the `r`-th occurrence (1-based) and requires `1 ≤ r ≤ rank(size, c)`.
  A call outside the contract has no result (`none`).
* `assert`s of the source are kept: a failed assertion has no result (`none`).
* Sizes, positions and ranks are `size_t` values below `2 ^ 64` (they index a vector held in
  memory), so their sums do not overflow; `size_t` subtraction wraps modulo `2 ^ 64` on
  underflow. `ssize_t` results are integers.
* `m_node_rank` / `m_node_select` are the `rank_0` / `select_0` supports of `m_node_flags`
  (the stored bits are inverted: a stored `0` marks the first edge of a node).
-/

namespace Cosmo

/-! ## Machine arithmetic -/

/-- Subtraction `a - b` of two `size_t` values: exact when `b ≤ a`, and wrapping modulo
`2 ^ 64` on underflow. -/
def usub (a b : Nat) : Nat := if b ≤ a then a - b else (a + 2 ^ 64 - b) % 2 ^ 64

/-- Conversion of an `ssize_t` argument to a `size_t` parameter: the value itself when it
is non-negative, its residue modulo `2 ^ 64` otherwise. -/
def toSizeT (z : Int) : Nat := if 0 ≤ z then z.toNat else (z % (2 ^ 64 : Int)).toNat

/-! ## The succinct library, by contract -/

/-- Occurrences of `c` in the prefix `[0, i)` of `v`; requires `i ≤ v.size()`. -/
def rank {α : Type} [DecidableEq α] (v : List α) (i : Nat) (c : α) : Option Nat :=
  if i ≤ v.length then some ((v.take i).count c) else none

/-- Scan for the `r`-th occurrence (`r ≥ 1`) of `c`, the head of the list being at `pos`. -/
def selectAux {α : Type} [DecidableEq α] (c : α) : List α → Nat → Nat → Option Nat
  | [], _, _ => none
  | a :: as, r, pos =>
    if a = c then
      if r = 1 then some pos else selectAux c as (r - 1) (pos + 1)
    else selectAux c as r (pos + 1)

/-- Position of the `r`-th occurrence of `c` in `v` (1-based);
requires `1 ≤ r ≤ rank(size, c)`. -/
def select {α : Type} [DecidableEq α] (v : List α) (r : Nat) (c : α) : Option Nat :=
  if r = 0 then none else selectAux c v r 0

/-- The loop of `std::upper_bound` (length-halving binary search) over the array `a`. -/
def upper_bound_loop (a : List Nat) (val : Nat) : Nat → Nat → Nat → Nat
  | 0, first, _ => first
  | fuel + 1, first, len =>
    if 0 < len then
      let half := len >>> 1
      let middle := first + half
      if val < a.getD middle 0 then upper_bound_loop a val fuel first half
      else upper_bound_loop a val fuel (middle + 1) (len - half - 1)
    else first

/-- The call `std::upper_bound(a.begin(), a.end(), val) - a.begin()`: the loop halves `len` in every
round, so `a.length` rounds are enough. -/
def upper_bound (a : List Nat) (val : Nat) : Nat :=
  upper_bound_loop a val a.length 0 a.length

/-! ## The index -/

/-- Alphabet size (`t_sigma`, fixed to 4 by the `static_assert`). -/
def sigma : Nat := 4

/-- The members of `debruijn_graph`. -/
structure debruijn_graph where
  k : Nat
  m_node_flags : List Bool
  m_edges : List Nat
  m_symbol_ends : List Nat
  m_edge_max_ranks : List Nat
  m_alphabet : List Nat
  m_num_nodes : Nat

namespace debruijn_graph

/-- The symbol of an edge label: `x >> 1`. -/
def _strip_edge_flag (x : Nat) : Nat := x >>> 1

/-- The edge label `(x << 1) | edge_flag` (symbols are at most `sigma`, so the 8-bit symbol
type does not overflow). -/
def _with_edge_flag (x : Nat) (edge_flag : Bool) : Nat := (x <<< 1) ||| edge_flag.toNat

/-- The support `m_node_rank(i)`: `rank_0` over `m_node_flags`. -/
def m_node_rank (G : debruijn_graph) (i : Nat) : Option Nat := rank G.m_node_flags i false

/-- The support `m_node_select(r)`: `select_0` over `m_node_flags`. -/
def m_node_select (G : debruijn_graph) (r : Nat) : Option Nat := select G.m_node_flags r false

/-- The table `max_ranks[x] = edges.rank(edges.size(), with(x, false))` for `x = 0..sigma`. -/
def _init_max_ranks (edges : List Nat) : List Nat :=
  (List.range (sigma + 1)).map fun x => (edges.take edges.length).count (_with_edge_flag x false)

/-- The constructor `debruijn_graph(in_k, node_flags, edges, symbol_ends, alphabet)`. -/
def construct (in_k : Nat) (node_flags : List Bool) (edges : List Nat) (symbol_ends : List Nat)
    (alphabet : List Nat) : debruijn_graph :=
  { k := in_k
    m_node_flags := node_flags
    m_edges := edges
    m_symbol_ends := symbol_ends
    m_edge_max_ranks := _init_max_ranks edges
    m_alphabet := alphabet
    m_num_nodes := (node_flags.take node_flags.length).count false }

def num_edges (G : debruijn_graph) : Nat := G.m_node_flags.length

def num_nodes (G : debruijn_graph) : Nat := G.m_num_nodes

def _symbol_start (G : debruijn_graph) (x : Nat) : Option Nat :=
  if x < sigma + 1 then
    if x = 0 then some 0 else G.m_symbol_ends[x - 1]?
  else none

def _node_to_edge (G : debruijn_graph) (v : Nat) : Option Nat :=
  if v < G.num_nodes then G.m_node_select (v + 1) else none

def _edge_to_node (G : debruijn_graph) (i : Nat) : Option Nat :=
  if i < G.num_edges then do
    let r ← G.m_node_rank (i + 1)
    pure (usub r 1)
  else none

/-- The last symbol of the node of edge `i`: `upper_bound` of `i` in `m_symbol_ends`. -/
def _symbol_access (G : debruijn_graph) (i : Nat) : Option Nat :=
  if i < G.num_edges then some (upper_bound G.m_symbol_ends i) else none

def _next_edge (G : debruijn_graph) (i x : Nat) : Option Nat :=
  if usub G.num_edges 1 ≤ i then some i
  else do
    let r ← rank G.m_edges (1 + i) (_with_edge_flag x false)
    let next_rank := 1 + r
    let mx ← G.m_edge_max_ranks[x]?
    if mx < next_rank then pure G.num_edges
    else select G.m_edges next_rank (_with_edge_flag x false)

def _rank_distance (G : debruijn_graph) (a b : Nat) : Option Nat := do
  let rb ← G.m_node_rank b
  let ra ← G.m_node_rank a
  pure (usub rb ra)

/-- The overload `_forward(i, x)`; the result is an `ssize_t`. -/
def _forward (G : debruijn_graph) (i : Nat) : Option Int :=
  if i < G.num_edges then do
    let w ← G.m_edges[i]?
    let x := _strip_edge_flag w
    if x = 0 then pure (-1)
    else do
      let start ← G._symbol_start x
      let nth ← rank G.m_edges i (_with_edge_flag x false)
      let r ← G.m_node_rank (start + 1)
      let next ← G.m_node_select (r + nth)
      pure (Int.ofNat next)
  else none

def _backward (G : debruijn_graph) (i : Nat) : Option Nat :=
  if i < G.num_edges then do
    let x ← G._symbol_access i
    if x = 0 then pure 0
    else do
      let x_start ← G._symbol_start x
      let nth ← G._rank_distance x_start (i + 1)
      select G.m_edges (nth + 1) (_with_edge_flag x false)
  else none

def _first_edge_of_node (G : debruijn_graph) (v : Nat) : Option Nat :=
  if v < G.num_nodes then G.m_node_select (v + 1) else none

def _last_edge_of_node (G : debruijn_graph) (v : Nat) : Option Nat :=
  if v + 1 ≤ G.num_nodes then
    if v + 1 = G.num_nodes then some (usub G.num_edges 1)
    else do
      let f ← G._first_edge_of_node (v + 1)
      pure (usub f 1)
  else none

def _node_range (G : debruijn_graph) (v : Nat) : Option (Nat × Nat) := do
  let f ← G._first_edge_of_node v
  let l ← G._last_edge_of_node v
  pure (f, l)

def outdegree (G : debruijn_graph) (v : Nat) : Option Nat :=
  if v < G.num_nodes then do
    let range ← G._node_range v
    let first := range.1
    let last := range.2
    let count := usub last first + 1
    let w ← G.m_edges[first]?
    pure (usub count (if count = 1 ∧ _strip_edge_flag w = 0 then 1 else 0))
  else none

def indegree (G : debruijn_graph) (v : Nat) : Option Nat := do
  let j ← G._node_to_edge v
  let x ← G._symbol_access j
  if x = 0 then pure 0
  else do
    let i_first ← G._backward j
    let i_last ← G._next_edge i_first x
    let a ← rank G.m_edges i_last (_with_edge_flag x true)
    let b ← rank G.m_edges i_first (_with_edge_flag x true)
    pure (usub a b + 1)

/-- The body of the `for (c = with(x,false); c <= with(x,true); c++)` loop of `outgoing`,
over the values of `c` still to be tried. -/
def outgoing_loop (G : debruijn_graph) (first last : Nat) : List Nat → Option Int
  | [] => some (-1)
  | c :: cs => do
    let r ← rank G.m_edges (last + 1) c
    let most_recent ← select G.m_edges r c
    if first ≤ most_recent ∧ most_recent ≤ last then do
      let f ← G._forward most_recent
      let n ← G._edge_to_node (toSizeT f)
      pure (Int.ofNat n)
    else outgoing_loop G first last cs

def outgoing (G : debruijn_graph) (u x : Nat) : Option Int :=
  if u < G.num_nodes then
    if x < sigma + 1 then
      if x = 0 then some (-1)
      else do
        let range ← G._node_range u
        outgoing_loop G range.1 range.2
          (List.range' (_with_edge_flag x false)
            (_with_edge_flag x true + 1 - _with_edge_flag x false))
    else none
  else none

/-- The variant `interval_node_outgoing(u, x)` of `outgoing` that is given the edge range
`u = (first, last)` of the node; its loop is the loop of `outgoing`. -/
def interval_node_outgoing (G : debruijn_graph) (u : Nat × Nat) (x : Nat) : Option Int :=
  if x < sigma + 1 then
    if x = 0 then some (-1)
    else
      outgoing_loop G u.1 u.2
        (List.range' (_with_edge_flag x false)
          (_with_edge_flag x true + 1 - _with_edge_flag x false))
  else none

/-- The body of the `for (c = with(x,false); c <= with(x,true); c++)` loop of
`_outgoing_edge_pair`, which returns `_forward(most_recent)` itself. -/
def _outgoing_edge_pair_loop (G : debruijn_graph) (first last : Nat) : List Nat → Option Int
  | [] => some (-1)
  | c :: cs => do
    let r ← rank G.m_edges (last + 1) c
    let most_recent ← select G.m_edges r c
    if first ≤ most_recent ∧ most_recent ≤ last then G._forward most_recent
    else _outgoing_edge_pair_loop G first last cs

def _outgoing_edge_pair (G : debruijn_graph) (first last x : Nat) : Option Int :=
  _outgoing_edge_pair_loop G first last
    (List.range' (_with_edge_flag x false)
      (_with_edge_flag x true + 1 - _with_edge_flag x false))

/-- The well-formedness conditions on an index: `|W| = |L| = F[sigma]`, `F` has `sigma + 1`
non-decreasing entries, position 0 and every position `F[x-1] < E` are node starts, and for
each symbol `x` in `1..sigma` there are as many unflagged `x` entries in `W` as node starts
in `[F[x-1], F[x])`. -/
def WellFormed (G : debruijn_graph) : Prop :=
  G.m_edges.length = G.m_node_flags.length ∧
  G.m_symbol_ends.length = sigma + 1 ∧
  G.m_symbol_ends.getD sigma 0 = G.m_node_flags.length ∧
  G.m_symbol_ends.Pairwise (· ≤ ·) ∧
  (0 < G.m_node_flags.length → G.m_node_flags[0]? = some false) ∧
  (∀ x, x < sigma + 1 → x ≠ 0 → G.m_symbol_ends.getD (x - 1) 0 < G.m_node_flags.length →
    G.m_node_flags[G.m_symbol_ends.getD (x - 1) 0]? = some false) ∧
  (∀ x, x < sigma + 1 → x ≠ 0 →
    G.m_edges.count (_with_edge_flag x false) =
      (G.m_node_flags.take (G.m_symbol_ends.getD x 0)).count false -
        (G.m_node_flags.take (G.m_symbol_ends.getD (x - 1) 0)).count false)

instance decidableWellFormed (G : debruijn_graph) : Decidable (WellFormed G) := by
  unfold WellFormed; infer_instance

/-- The loop of `_first_symbol`: `n` iterations are left, `i` is the current edge and `x` the
symbol read last. -/
def _first_symbol_loop (G : debruijn_graph) : Nat → Nat → Nat → Option Nat
  | 0, _, x => some x
  | n + 1, i, _ => do
    let x ← G._symbol_access i
    if x = 0 then pure x
    else do
      let i' ← G._backward i
      _first_symbol_loop G n i' x

def _first_symbol (G : debruijn_graph) (i : Nat) : Option Nat :=
  G._first_symbol_loop (usub G.k 1) i 0

/-- The map `(m_alphabet.size() > 0) ? m_alphabet[x] : x`; `m_alphabet` is a `const` string,
whose `operator[]` gives the character at `x < size()`, the null character at `x = size()`,
and has no defined result beyond. -/
def _map_symbol (G : debruijn_graph) (x : Nat) : Option Nat :=
  if 0 < G.m_alphabet.length then
    if x = G.m_alphabet.length then some 0 else G.m_alphabet[x]?
  else some x

/-- The loop of `_node_label_from_edge_given_buffer`: `n` iterations are left, `pos` is the
loop counter, `i` the current edge. -/
def _node_label_loop (G : debruijn_graph) : Nat → Nat → Nat → List Nat → Option (List Nat)
  | 0, _, _, label => some label
  | n + 1, pos, i, label => do
    let x ← G._symbol_access i
    let m ← G._map_symbol x
    let idx := usub (usub G.k pos) 1
    if idx < label.length then
      let label' := label.set idx m
      if x = 0 then pure label'
      else do
        let i' ← G._backward i
        _node_label_loop G n (pos + 1) i' label'
    else none

def _node_label_from_edge_given_buffer (G : debruijn_graph) (i : Nat) (label : List Nat) :
    Option (List Nat) :=
  G._node_label_loop (usub G.k 1) 1 i label

def node_label (G : debruijn_graph) (v : Nat) : Option (List Nat) := do
  let i ← G._node_to_edge v
  let fill ← G._map_symbol 0
  G._node_label_from_edge_given_buffer i (List.replicate (usub G.k 1) fill)

/-- The query `incoming(v, x)`; the helper `function_binary_search` of `algorithm.hpp` is a parameter
(`search first last value f`). -/
def incoming (search : Nat → Nat → Nat → (Nat → Option Nat) → Option Int)
    (G : debruijn_graph) (v x : Nat) : Option Int :=
  if v < G.num_nodes then
    if x < sigma + 1 then do
      let j ← G._node_to_edge v
      let y ← G._symbol_access j
      if y = 0 then pure (-1)
      else do
        let i_first ← G._backward j
        let i_last ← G._next_edge i_first y
        let base_rank ← rank G.m_edges i_first (_with_edge_flag y true)
        let last_rank ← rank G.m_edges i_last (_with_edge_flag y true)
        let num_predecessors := usub last_rank base_rank + 1
        let selector : Nat → Option Nat := fun i =>
          if i = 0 then some i_first
          else select G.m_edges (base_rank + i) (_with_edge_flag y true)
        let accessor : Nat → Option Nat := fun i => do
          let e ← selector i
          G._first_symbol e
        let sub_idx ← search 0 (usub num_predecessors 1) x accessor
        if sub_idx = -1 then pure (-1)
        else do
          let e ← selector (toSizeT sub_idx)
          let n ← G._edge_to_node e
          pure (Int.ofNat n)
    else none
  else none

/-- A search for the examples, in place of `function_binary_search`: the first index in
`[first, last]` at which `f` gives `value`, and -1 when there is none. -/
def sample_search (first last value : Nat) (f : Nat → Option Nat) : Option Int :=
  match (List.range' first (last + 1 - first)).find? (fun idx => f idx == some value) with
  | some idx => some (Int.ofNat idx)
  | none => some (-1)

/-- A sample index, `k = 3`, for the k-mers `ACG`, `CCG`, `CGG` with their dummy edges:
nodes `$$`, `$A`, `$C`, `AC`, `CC`, `CG`, `GG` and edges
`$$A`, `$$C`, `$AC`, `$CC`, `ACG`, `CCG` (flagged), `CGG`, `GG$`. -/
def sampleGraph : debruijn_graph :=
  construct 3 [false, true, false, false, false, false, false, false]
    [2, 4, 4, 4, 6, 7, 6, 0] [2, 3, 6, 8, 8] []

def node_label_from_edge (G : debruijn_graph) (i : Nat) : Option (List Nat) := do
  let fill ← G._map_symbol 0
  G._node_label_from_edge_given_buffer i (List.replicate (usub G.k 1) fill)

/-- The label of edge `i`: a buffer of `k` symbols, filled by
`_node_label_from_edge_given_buffer`, whose last position then receives the edge symbol. -/
def edge_label (G : debruijn_graph) (i : Nat) : Option (List Nat) := do
  let fill ← G._map_symbol 0
  let label ← G._node_label_from_edge_given_buffer i (List.replicate G.k fill)
  let w ← G.m_edges[i]?
  let m ← G._map_symbol (_strip_edge_flag w)
  if usub G.k 1 < label.length then pure (label.set (usub G.k 1) m) else none

/-- The loop `for (i = 0; i < num_predecessors; i++)` of `all_preds`: `n` iterations are left,
`i` is the loop counter and `result` the vector built so far. -/
def all_preds_loop (G : debruijn_graph) (selector : Nat → Option Nat) :
    Nat → Nat → List (Nat × Nat) → Option (List (Nat × Nat))
  | 0, _, result => some result
  | n + 1, i, result => do
    let e_i ← selector i
    let u ← G._edge_to_node e_i
    let e_j ← G._last_edge_of_node u
    all_preds_loop G selector n (i + 1) (result ++ [(e_i, e_j)])

/-- The predecessors of the node `v = (first, last)`; `result` starts as a vector of
`num_predecessors` default-constructed pairs, to which the loop appends. -/
def all_preds (G : debruijn_graph) (v : Nat × Nat) : Option (List (Nat × Nat)) := do
  let j := v.1
  let y ← G._symbol_access j
  if y = 0 then pure []
  else do
    let i_first ← G._backward j
    let i_last ← G._next_edge i_first y
    let base_rank ← rank G.m_edges i_first (_with_edge_flag y true)
    let last_rank ← rank G.m_edges i_last (_with_edge_flag y true)
    let num_predecessors := usub last_rank base_rank + 1
    let selector : Nat → Option Nat := fun i =>
      if i = 0 then some i_first
      else select G.m_edges (base_rank + i) (_with_edge_flag y true)
    G.all_preds_loop selector num_predecessors 0 (List.replicate num_predecessors (0, 0))

/-- A second sample index, `k = 3`, for the k-mers `TTA`, `TAC`, `CAC`, `ACA`, `GAC`, `GAG`,
`AGA` and the dummy edges `$$T`, `$TT` of the node `TT`, which has no incoming edge: nodes
`$$`, `CA`, `GA`, `TA`, `AC`, `AG`, `$T`, `TT` and edges
`$$T`, `CAC`, `GAC` (flagged), `GAG`, `TAC` (flagged), `ACA`, `AGA`, `$TT`, `TTA`. -/
def sampleGraph2 : debruijn_graph :=
  construct 3 [false, false, false, true, false, false, false, false, false]
    [8, 4, 5, 6, 5, 2, 2, 8, 2] [1, 5, 6, 7, 9] []

/-! ## Loading from packed edges -/

/-- The inner loop `for (i = 0; current_edge < num_edges && i < PACKED_CAPACITY; ++i,
++current_edge)` over one block: `n` slots of the block are left. The decoder
`unpack block i` stands for `unpack_to_tuple(get_packed_edge_from_block(block, i))` of
`utility.hpp`; the vector `edges` holds 8-bit entries. -/
def decode_block (unpack : Nat → Nat → Nat × Bool × Bool) (num_edges block : Nat) :
    Nat → Nat → Nat → List Bool → List Nat → Nat × List Bool × List Nat
  | 0, _, current_edge, first, edges => (current_edge, first, edges)
  | n + 1, i, current_edge, first, edges =>
    if current_edge < num_edges then
      let x := unpack block i
      decode_block unpack num_edges block n (i + 1) (current_edge + 1)
        (first.set current_edge (!x.2.1))
        (edges.set current_edge (((x.1 <<< 1) ||| (!x.2.2).toNat) % 256))
    else (current_edge, first, edges)

/-- The outer loop `for (current_edge = 0, current_block = 0; current_edge < num_edges &&
current_block < num_blocks;)`: every round reads the next 64-bit word of the input (at word
position `pos`) and decodes it; `current_block` is not changed by the loop. A read past the
end of the input has no result, and neither has a loop that is still running when the fuel
is used up. -/
def decode_loop (cap : Nat) (unpack : Nat → Nat → Nat × Bool × Bool) (words : List Nat)
    (num_edges num_blocks : Nat) :
    Nat → Nat → Nat → Nat → List Bool → List Nat → Option (List Bool × List Nat)
  | 0, current_edge, current_block, _, first, edges =>
    if current_edge < num_edges ∧ current_block < num_blocks then none else some (first, edges)
  | fuel + 1, current_edge, current_block, pos, first, edges =>
    if current_edge < num_edges ∧ current_block < num_blocks then do
      let block ← words[pos]?
      let r := decode_block unpack num_edges block cap 0 current_edge first edges
      decode_loop cap unpack words num_edges num_blocks fuel r.1 current_block (pos + 1)
        r.2.1 r.2.2
    else some (first, edges)

/-- The loader `load_from_packed_edges` on an input of 64-bit words: the last `sigma + 2`
words are the footer (the counts and `k`). `PACKED_CAPACITY` (`cap`) and the decoder of
`utility.hpp` are parameters. Each round of the loop decodes at least one edge when
`cap > 0`, so `num_edges` rounds of fuel are enough. -/
def load_from_packed_edges (cap : Nat) (unpack : Nat → Nat → Nat × Bool × Bool)
    (words : List Nat) (alphabet : List Nat) : Option debruijn_graph :=
  if sigma + 2 ≤ words.length then do
    let num_blocks := usub words.length (sigma + 2)
    let counts := (words.drop num_blocks).take (sigma + 1)
    let k ← words[num_blocks + sigma + 1]?
    let num_edges ← counts[sigma]?
    let r ← decode_loop cap unpack words num_edges num_blocks num_edges 0 0 0
      (List.replicate num_edges false) (List.replicate num_edges 0)
    pure (construct k r.1 r.2 counts alphabet)
  else none

/-- A decoder for the examples: entries of 5 bits, the symbol in the upper three bits, then
the two flags. -/
def sample_unpack (block i : Nat) : Nat × Bool × Bool :=
  ((block >>> (5 * i + 2)) % 8, block.testBit (5 * i + 1), block.testBit (5 * i))

/-! ## Serialization -/

/-- Serialized form of a `size_t` (`write_member`): one word. -/
def write_size (n : Nat) : List Nat := [n]

def read_size : List Nat → Option (Nat × List Nat)
  | [] => none
  | n :: rest => some (n, rest)

/-- Serialized form of a vector of words (the wavelet tree over `W`, the alphabet string): its
length, then its entries. -/
def write_vector (v : List Nat) : List Nat := v.length :: v

def read_vector : List Nat → Option (List Nat × List Nat)
  | [] => none
  | n :: rest => if n ≤ rest.length then some (rest.take n, rest.drop n) else none

/-- Serialized form of a bit vector: its length, then one word per bit. -/
def write_bits (v : List Bool) : List Nat := write_vector (v.map Bool.toNat)

def read_bits (s : List Nat) : Option (List Bool × List Nat) := do
  let r ← read_vector s
  pure (r.1.map (fun w => decide (w ≠ 0)), r.2)

/-- Serialized form of an `array<size_t, 1+sigma>` (`write_member`): its `sigma + 1` words. -/
def write_array (a : List Nat) : List Nat := a

def read_array (s : List Nat) : Option (List Nat × List Nat) :=
  if sigma + 1 ≤ s.length then some (s.take (sigma + 1), s.drop (sigma + 1)) else none

/-- Serialized form of a rank or select support of the bit vector: the support holds no data
of its own (it is bound to the vector), so nothing is written. -/
def write_support : List Nat := []

def read_support (s : List Nat) : Option (Unit × List Nat) := some ((), s)

/-- The member function `serialize`: the members in the order in which they are written. -/
def serialize (G : debruijn_graph) : List Nat :=
  write_size G.k ++ write_bits G.m_node_flags ++ write_support ++ write_support ++
    write_vector G.m_edges ++ write_array G.m_symbol_ends ++ write_array G.m_edge_max_ranks ++
    write_vector G.m_alphabet ++ write_size G.m_num_nodes

/-- The member function `load`: the members in the order in which they are read; the rank and
select supports are re-bound to the loaded `m_node_flags` (`set_vector`), which in this
embedding is how `m_node_rank` and `m_node_select` are defined. The result is the loaded
object and the rest of the stream. -/
def load (s : List Nat) : Option (debruijn_graph × List Nat) := do
  let (k, s) ← read_size s
  let (node_flags, s) ← read_bits s
  let (_, s) ← read_support s
  let (_, s) ← read_support s
  let (edges, s) ← read_vector s
  let (symbol_ends, s) ← read_array s
  let (edge_max_ranks, s) ← read_array s
  let (alphabet, s) ← read_vector s
  let (num_nodes, s) ← read_size s
  pure ({ k := k, m_node_flags := node_flags, m_edges := edges, m_symbol_ends := symbol_ends,
          m_edge_max_ranks := edge_max_ranks, m_alphabet := alphabet,
          m_num_nodes := num_nodes }, s)

end debruijn_graph

/-! ## cosmo-build: the color bitmap -/

/-- The variables captured by the callbacks of the colored build. -/
structure color_state where
  color_bv : List Bool
  num_set : Nat
  edge_idx : Nat

/-- The pre-merge callback: `color_bv = bit_vector(x * num_colors)`. -/
def pre_merge (num_colors x : Nat) (st : color_state) : color_state :=
  { st with color_bv := List.replicate (x * num_colors) false }

/-- The loop over `color_idx` of the merge visitor: `n` colors are left; `color` is the color
mask of the record (a bitset), `color[color_idx]` its bit. A write outside `color_bv` has no
result. -/
def visit_colors (num_colors color edge_idx : Nat) :
    Nat → Nat → List Bool → Nat → Option (List Bool × Nat)
  | 0, _, color_bv, num_set => some (color_bv, num_set)
  | n + 1, color_idx, color_bv, num_set =>
    if edge_idx * num_colors + color_idx < color_bv.length then
      visit_colors num_colors color edge_idx n (color_idx + 1)
        (color_bv.set (edge_idx * num_colors + color_idx) (color.testBit color_idx))
        (num_set + (color.testBit color_idx).toNat)
    else none

/-- The merge visitor, called on the color mask of one record. -/
def merge_visitor (num_colors color : Nat) (st : color_state) : Option color_state := do
  let r ← visit_colors num_colors color st.edge_idx num_colors 0 st.color_bv st.num_set
  pure { color_bv := r.1, num_set := r.2, edge_idx := st.edge_idx + 1 }

/-- The visitor applied to the records in order. -/
def visit_records (num_colors : Nat) : List Nat → color_state → Option color_state
  | [], st => some st
  | color :: rest, st => do
    let st' ← merge_visitor num_colors color st
    visit_records num_colors rest st'

/-- The colored build as far as the bitmap goes: the pre-merge callback receives the number
of records, then the visitor sees every record. -/
def colored_build (num_colors : Nat) (records : List Nat) : Option color_state :=
  visit_records num_colors records
    (pre_merge num_colors records.length { color_bv := [], num_set := 0, edge_idx := 0 })

/-! ## rc_file: the reverse-complement utility -/

/-- The loop of `main` in `rc_file.cpp` over the reads that the reader still holds; the
result is the list of sequences written. `get_next_read_to_buffer` gives the length of the
next read, and 0 when no read is left; the complement table `get_rc` of `SeqIO.hh` is a
parameter. -/
def rc_main (get_rc : Char → Char) : List (List Char) → List (List Char)
  | [] => []
  | s :: rest =>
    if s.length = 0 then []
    else (s.reverse.map get_rc) :: rc_main get_rc rest

/-- The complement of a nucleotide: `A` with `T` and `C` with `G`, every other character
unchanged. -/
def dna_complement (c : Char) : Char :=
  if c = 'A' then 'T' else if c = 'T' then 'A' else if c = 'C' then 'G'
  else if c = 'G' then 'C' else c

/-! ## cosmo-benchmark: the query loop -/

/-- The query loop of `main` in `cosmo-benchmark.cpp`: for every query `res = g.index(...)`
and then `result = *res`. The member `index` of the graph class is a parameter (it gives an
optional node); dereferencing an empty optional has no result. -/
def query_loop (index : List Char → Option (Nat × Nat)) :
    List (List Char) → Option (List (Nat × Nat))
  | [] => some []
  | s :: rest => do
    let result ← index s
    let others ← query_loop index rest
    pure (result :: others)

/-! ## cosmo-pack: the shifted incoming dummies -/

/-- The shift `x <<= n` on a `kmer_t` of `w` bits (`w = 64` for `K_LEN ≤ 32`, otherwise 128). -/
def kmer_shl (w x n : Nat) : Nat := (x <<< n) % 2 ^ w

/-- The loop `for (int i=0; i<k-1; i++) { x <<= i*2; dummy_sorter.push(dummy_t(x,k-i-1)); }` of
the callback given to `find_incoming_dummy_nodes`: `n` iterations are left, `pushed` is what
the sorter has received from this call so far. -/
def push_dummies_loop (w k : Nat) : Nat → Nat → Nat → List (Nat × Nat) → List (Nat × Nat)
  | 0, _, _, pushed => pushed
  | n + 1, i, x, pushed =>
    push_dummies_loop w k n (i + 1) (kmer_shl w x (i * 2))
      (pushed ++ [(kmer_shl w x (i * 2), usub (usub k i) 1)])

/-- The callback on a reported k-mer `x`: the dummies it pushes, in order. -/
def push_dummies (w k x : Nat) : List (Nat × Nat) :=
  push_dummies_loop w k (usub k 1) 0 x []

/-! ## Rank and select: basic facts -/

section RankSelect

variable {α : Type} [DecidableEq α]

theorem count_take_succ (v : List α) (c : α) (i : Nat) (h : i < v.length) :
    (v.take (i + 1)).count c = (v.take i).count c + (if v[i] = c then 1 else 0) := by
  have hsplit : v.take (i + 1) = v.take i ++ [v[i]] := by
    rw [List.take_succ, List.getElem?_eq_getElem h]; rfl
  rw [hsplit, List.count_append, List.count_singleton]
  by_cases hc : v[i] = c
  · simp [hc]
  · simp [hc]

theorem count_take_mono (v : List α) (c : α) {i j : Nat} (h : i ≤ j) :
    (v.take i).count c ≤ (v.take j).count c := by
  have : v.take i = (v.take j).take i := by
    rw [List.take_take, Nat.min_eq_left h]
  rw [this]
  exact (List.take_sublist _ _).count_le _

theorem count_take_le (v : List α) (c : α) (i : Nat) :
    (v.take i).count c ≤ v.count c :=
  (List.take_sublist _ _).count_le _

theorem count_take_le_self (v : List α) (c : α) (i : Nat) :
    (v.take i).count c ≤ i := by
  calc (v.take i).count c ≤ (v.take i).length := List.count_le_length _ _
    _ ≤ i := by simp

theorem selectAux_eq_some (c : α) (v : List α) (r pos p : Nat) :
    selectAux c v r pos = some p ↔
      ∃ q, p = pos + q ∧ v[q]? = some c ∧ (v.take q).count c + 1 = r := by
  induction v generalizing r pos with
  | nil => simp [selectAux]
  | cons a as ih =>
    unfold selectAux
    by_cases hac : a = c
    · subst hac
      by_cases hr : r = 1
      · subst hr
        simp only [if_true]
        constructor
        · intro h
          exact ⟨0, by simpa using h.symm, by simp, by simp⟩
        · rintro ⟨q, hp, _, hq⟩
          cases q with
          | zero => simp [hp]
          | succ q => simp [List.take_succ_cons, List.count_cons] at hq
      · simp only [if_true, hr, if_false]
        rw [ih]
        constructor
        · rintro ⟨q, hp, hq, hc⟩
          refine ⟨q + 1, by omega, by simpa using hq, ?_⟩
          simp only [List.take_succ_cons, List.count_cons_self]
          omega
        · rintro ⟨q, hp, hq, hc⟩
          cases q with
          | zero => simp at hc; omega
          | succ q =>
            refine ⟨q, by omega, by simpa using hq, ?_⟩
            simp only [List.take_succ_cons, List.count_cons_self] at hc
            omega
    · simp only [hac, if_false]
      rw [ih]
      constructor
      · rintro ⟨q, hp, hq, hc⟩
        refine ⟨q + 1, by omega, by simpa using hq, ?_⟩
        simpa [List.take_succ_cons, List.count_cons, hac] using hc
      · rintro ⟨q, hp, hq, hc⟩
        cases q with
        | zero => simp at hq; exact absurd hq hac
        | succ q =>
          refine ⟨q, by omega, by simpa using hq, ?_⟩
          simpa [List.take_succ_cons, List.count_cons, hac] using hc

/-- Characterisation of `select`: the position of the `r`-th occurrence. -/
theorem select_eq_some (v : List α) (r : Nat) (c : α) (p : Nat) :
    select v r c = some p ↔ v[p]? = some c ∧ (v.take p).count c + 1 = r := by
  unfold select
  by_cases hr : r = 0
  · subst hr; simp
  · simp only [hr, if_false, selectAux_eq_some, Nat.zero_add]
    constructor
    · rintro ⟨q, rfl, h⟩; exact h
    · intro h; exact ⟨p, rfl, h⟩

theorem exists_occurrence (v : List α) (c : α) (r : Nat) (h1 : 1 ≤ r) (h2 : r ≤ v.count c) :
    ∃ q, v[q]? = some c ∧ (v.take q).count c + 1 = r := by
  induction v generalizing r with
  | nil => simp at h2; omega
  | cons a as ih =>
    by_cases hac : a = c
    · subst hac
      by_cases hr : r = 1
      · exact ⟨0, by simp, by simp [hr]⟩
      · simp only [List.count_cons_self] at h2
        obtain ⟨q, hq, hc⟩ := ih (r - 1) (by omega) (by omega)
        refine ⟨q + 1, by simpa using hq, ?_⟩
        simp only [List.take_succ_cons, List.count_cons_self]
        omega
    · have h2' : r ≤ as.count c := by simpa [List.count_cons, hac] using h2
      obtain ⟨q, hq, hc⟩ := ih r h1 h2'
      refine ⟨q + 1, by simpa using hq, ?_⟩
      simpa [List.take_succ_cons, List.count_cons, hac] using hc

/-- Inside its contract `select` has a result. -/
theorem select_defined (v : List α) (c : α) (r : Nat) (h1 : 1 ≤ r) (h2 : r ≤ v.count c) :
    ∃ p, select v r c = some p := by
  obtain ⟨q, hq⟩ := exists_occurrence v c r h1 h2
  exact ⟨q, (select_eq_some v r c q).2 hq⟩

omit [DecidableEq α] in
theorem getElem?_eq_some_lt {v : List α} {p : Nat} {c : α} (h : v[p]? = some c) :
    p < v.length := by
  by_contra hlt
  rw [List.getElem?_eq_none (by omega)] at h
  exact Option.noConfusion h

theorem count_take_succ_of_getElem? (v : List α) (c : α) (p : Nat) (h : v[p]? = some c) :
    (v.take (p + 1)).count c = (v.take p).count c + 1 := by
  have hp := getElem?_eq_some_lt h
  rw [count_take_succ v c p hp]
  rw [List.getElem?_eq_getElem hp] at h
  simp [Option.some.inj h]

/-- An occurrence at `p` with `count (take p) = count (take i)` lies at or after `i`. -/
theorem occurrence_ge (v : List α) (c : α) (p i : Nat) (h : v[p]? = some c)
    (hc : (v.take i).count c ≤ (v.take p).count c) : i ≤ p := by
  by_contra hlt
  have h1 := count_take_succ_of_getElem? v c p h
  have h2 := count_take_mono v c (show p + 1 ≤ i by omega)
  omega

/-- An occurrence at `p` whose inclusive count is within that of the prefix `[0, i)` lies in it
whenever the prefix count is exceeded beyond. -/
theorem occurrence_lt (v : List α) (c : α) (p i : Nat)
    (hc : (v.take p).count c < (v.take i).count c) : p < i := by
  by_contra hlt
  have h2 := count_take_mono v c (show i ≤ p by omega)
  omega

/-- Occurrences inside the window `[a, b)` as a difference of two prefix counts. -/
theorem count_drop_take (v : List α) (c : α) {a b : Nat}
    (h : a ≤ b) :
    ((v.take b).drop a).count c = (v.take b).count c - (v.take a).count c := by
  have h1 : v.take b = v.take a ++ (v.take b).drop a := by
    have := (List.take_append_drop a (v.take b)).symm
    rwa [List.take_take, Nat.min_eq_left h] at this
  have h2 : (v.take b).count c = (v.take a).count c + ((v.take b).drop a).count c := by
    conv_lhs => rw [h1]
    exact List.count_append _ _ _
  omega

theorem usub_of_le {a b : Nat} (h : b ≤ a) : usub a b = a - b := by
  unfold usub; rw [if_pos h]

end RankSelect

/-! ## `std::upper_bound` on a sorted array -/

theorem getD_mono {a : List Nat} (hs : a.Pairwise (· ≤ ·)) {i j : Nat} (hij : i ≤ j)
    (hj : j < a.length) : a.getD i 0 ≤ a.getD j 0 := by
  have hi : i < a.length := by omega
  rw [List.getD_eq_getElem _ _ hi, List.getD_eq_getElem _ _ hj]
  rcases Nat.lt_or_eq_of_le hij with h | h
  · exact (List.pairwise_iff_getElem.1 hs) i j hi hj h
  · subst h; exact Nat.le_refl _

theorem upper_bound_loop_spec (a : List Nat) (val : Nat) (hs : a.Pairwise (· ≤ ·)) :
    ∀ fuel first len, len ≤ fuel → first + len ≤ a.length →
      (∀ j, j < first → a.getD j 0 ≤ val) →
      (∀ j, first + len ≤ j → j < a.length → val < a.getD j 0) →
      first ≤ upper_bound_loop a val fuel first len ∧
      upper_bound_loop a val fuel first len ≤ first + len ∧
      (∀ j, j < upper_bound_loop a val fuel first len → a.getD j 0 ≤ val) ∧
      (∀ j, upper_bound_loop a val fuel first len ≤ j → j < a.length → val < a.getD j 0) := by
  intro fuel
  induction fuel with
  | zero =>
    intro first len hfuel hlen hlo hhi
    have : len = 0 := by omega
    subst this
    exact ⟨Nat.le_refl _, by simp [upper_bound_loop], by simpa [upper_bound_loop] using hlo,
      by simpa [upper_bound_loop] using hhi⟩
  | succ fuel ih =>
    intro first len hfuel hlen hlo hhi
    unfold upper_bound_loop
    by_cases hpos : 0 < len
    · simp only [hpos, if_true, Nat.shiftRight_eq_div_pow, Nat.pow_one]
      have hhalf : len / 2 < len := Nat.div_lt_self hpos (by decide)
      by_cases hcmp : val < a.getD (first + len / 2) 0
      · simp only [hcmp, if_true]
        have hrec := ih first (len / 2) (by omega) (by omega) hlo (by
          intro j hj1 hj2
          exact Nat.lt_of_lt_of_le hcmp (getD_mono hs hj1 hj2))
        exact ⟨hrec.1, by omega, hrec.2.2.1, hrec.2.2.2⟩
      · simp only [hcmp, if_false]
        have hrec := ih (first + len / 2 + 1) (len - len / 2 - 1) (by omega) (by omega) (by
          intro j hj
          exact Nat.le_trans (getD_mono hs (show j ≤ first + len / 2 by omega) (by omega))
            (Nat.le_of_not_lt hcmp)) (by
          intro j hj1 hj2
          exact hhi j (by omega) hj2)
        exact ⟨by omega, by omega, hrec.2.2.1, hrec.2.2.2⟩
    · have : len = 0 := by omega
      subst this
      simp only [Nat.lt_irrefl, if_false]
      exact ⟨Nat.le_refl _, Nat.le_refl _, hlo, hhi⟩

/-- On a sorted array `upper_bound` returns the least index whose entry exceeds `val`
(the length when there is none). -/
theorem upper_bound_spec (a : List Nat) (val : Nat) (hs : a.Pairwise (· ≤ ·)) :
    upper_bound a val ≤ a.length ∧
    (∀ j, j < upper_bound a val → a.getD j 0 ≤ val) ∧
    (∀ j, upper_bound a val ≤ j → j < a.length → val < a.getD j 0) := by
  have h := upper_bound_loop_spec a val hs a.length 0 a.length (Nat.le_refl _) (by omega)
    (by intro j hj; omega) (by intro j hj1 hj2; omega)
  unfold upper_bound
  exact ⟨by omega, h.2.2.1, h.2.2.2⟩

/-- On a sorted array, an index `x` with `a[x-1] ≤ val < a[x]` is the result. -/
theorem upper_bound_eq (a : List Nat) (val : Nat) (hs : a.Pairwise (· ≤ ·)) (x : Nat)
    (hx : x < a.length) (hlt : val < a.getD x 0) (hge : ∀ y, y < x → a.getD y 0 ≤ val) :
    upper_bound a val = x := by
  obtain ⟨_, h2, h3⟩ := upper_bound_spec a val hs
  apply Nat.le_antisymm
  · by_contra hcon
    have := h2 x (by omega)
    omega
  · by_contra hcon
    have h4 := h3 (upper_bound a val) (Nat.le_refl _) (by omega)
    have h5 := hge (upper_bound a val) (by omega)
    omega

namespace debruijn_graph

/-- C10: on a non-decreasing F table of length `sigma + 1` and for `i < F[sigma]`,
`_symbol_access(i)` is the least `x` with `i < F[x]`, and `_symbol_start(x) ≤ i < F[x]`. -/
theorem symbol_access_least (G : debruijn_graph) (i : Nat)
    (hlen : G.m_symbol_ends.length = sigma + 1)
    (hsorted : G.m_symbol_ends.Pairwise (· ≤ ·))
    (hi : i < G.m_symbol_ends.getD sigma 0)
    (hE : i < G.num_edges) :
    ∃ x, G._symbol_access i = some x ∧ x ≤ sigma ∧
      i < G.m_symbol_ends.getD x 0 ∧
      (∀ y, y < x → G.m_symbol_ends.getD y 0 ≤ i) ∧
      ∃ s, G._symbol_start x = some s ∧ s ≤ i ∧ i < G.m_symbol_ends.getD x 0 := by
  obtain ⟨h1, h2, h3⟩ := upper_bound_spec G.m_symbol_ends i hsorted
  have hxle : upper_bound G.m_symbol_ends i ≤ sigma := by
    by_contra hcon
    have := h2 sigma (by omega)
    omega
  have hlt : i < G.m_symbol_ends.getD (upper_bound G.m_symbol_ends i) 0 :=
    h3 _ (Nat.le_refl _) (by omega)
  refine ⟨upper_bound G.m_symbol_ends i, by simp [_symbol_access, hE], hxle, hlt, h2, ?_⟩
  by_cases hx0 : upper_bound G.m_symbol_ends i = 0
  · exact ⟨0, by simp [_symbol_start, hx0], Nat.zero_le _, hlt⟩
  · have hb : upper_bound G.m_symbol_ends i - 1 < G.m_symbol_ends.length := by omega
    refine ⟨G.m_symbol_ends[upper_bound G.m_symbol_ends i - 1], ?_, ?_, hlt⟩
    · have : upper_bound G.m_symbol_ends i < sigma + 1 := by omega
      simp [_symbol_start, hx0, this, List.getElem?_eq_getElem hb]
    · have := h2 (upper_bound G.m_symbol_ends i - 1) (by omega)
      rwa [List.getD_eq_getElem _ _ hb] at this

/-! ## Nodes and their edge ranges -/

theorem node_select_eq_some (G : debruijn_graph) (r p : Nat) :
    G.m_node_select r = some p ↔
      G.m_node_flags[p]? = some false ∧ (G.m_node_flags.take p).count false + 1 = r :=
  select_eq_some _ _ _ _

theorem node_rank_eq_some (G : debruijn_graph) (i r : Nat) :
    G.m_node_rank i = some r ↔
      i ≤ G.m_node_flags.length ∧ (G.m_node_flags.take i).count false = r := by
  unfold m_node_rank rank
  by_cases h : i ≤ G.m_node_flags.length <;> simp [h]

theorem first_edge_of_node_eq_some (G : debruijn_graph) (v f : Nat) :
    G._first_edge_of_node v = some f ↔
      v < G.num_nodes ∧ G.m_node_flags[f]? = some false ∧
        (G.m_node_flags.take f).count false = v := by
  unfold _first_edge_of_node
  by_cases h : v < G.num_nodes
  · simp only [h, if_true, node_select_eq_some, true_and]
    constructor
    · rintro ⟨h1, h2⟩; exact ⟨h1, by omega⟩
    · rintro ⟨h1, h2⟩; exact ⟨h1, by omega⟩
  · simp [h]

theorem node_to_edge_eq_first (G : debruijn_graph) (v : Nat) :
    G._node_to_edge v = G._first_edge_of_node v := rfl

theorem last_edge_of_node_eq_some (G : debruijn_graph) (v l : Nat) :
    G._last_edge_of_node v = some l ↔
      (v + 1 = G.num_nodes ∧ l = usub G.num_edges 1) ∨
      (v + 1 < G.num_nodes ∧ ∃ q, G.m_node_flags[q]? = some false ∧
        (G.m_node_flags.take q).count false = v + 1 ∧ l = usub q 1) := by
  unfold _last_edge_of_node
  by_cases h1 : v + 1 = G.num_nodes
  · have h2 : v + 1 ≤ G.num_nodes := by omega
    rw [if_pos h2, if_pos h1, Option.some.injEq]
    constructor
    · intro h; exact Or.inl ⟨h1, h.symm⟩
    · rintro (⟨_, h⟩ | ⟨h, _⟩)
      · exact h.symm
      · omega
  · by_cases h2 : v + 1 ≤ G.num_nodes
    · rw [if_pos h2, if_neg h1]
      constructor
      · intro h
        cases hf : G._first_edge_of_node (v + 1) with
        | none => simp [hf] at h
        | some q =>
          simp only [hf, Option.bind_eq_bind, Option.some_bind, Option.pure_def,
            Option.some.injEq] at h
          obtain ⟨_, hq1, hq2⟩ := (first_edge_of_node_eq_some G (v + 1) q).1 hf
          exact Or.inr ⟨by omega, q, hq1, hq2, h.symm⟩
      · rintro (⟨h, _⟩ | ⟨h, q, hq1, hq2, hl⟩)
        · exact absurd h h1
        · have hf := (first_edge_of_node_eq_some G (v + 1) q).2 ⟨h, hq1, hq2⟩
          simp [hf, hl]
    · rw [if_neg h2]
      constructor
      · intro h; exact Option.noConfusion h
      · rintro (⟨h, _⟩ | ⟨h, _⟩) <;> omega

theorem node_range_eq_some (G : debruijn_graph) (v f l : Nat) :
    G._node_range v = some (f, l) ↔
      G._first_edge_of_node v = some f ∧ G._last_edge_of_node v = some l := by
  unfold _node_range
  cases hf : G._first_edge_of_node v with
  | none => simp
  | some f' =>
    cases hl : G._last_edge_of_node v with
    | none => simp
    | some l' => simp

theorem flags_lt_of_some {G : debruijn_graph} {p : Nat} {b : Bool}
    (h : G.m_node_flags[p]? = some b) : p < G.num_edges :=
  getElem?_eq_some_lt h

/-- Every node range that the index yields is non-empty and lies inside `[0, E-1]`. -/
theorem node_range_nonempty (G : debruijn_graph) (v f l : Nat)
    (h : G._node_range v = some (f, l)) : f ≤ l ∧ l < G.num_edges := by
  obtain ⟨hf, hl⟩ := (node_range_eq_some G v f l).1 h
  obtain ⟨_, hf1, hf2⟩ := (first_edge_of_node_eq_some G v f).1 hf
  have hfE := flags_lt_of_some hf1
  rcases (last_edge_of_node_eq_some G v l).1 hl with ⟨_, hl⟩ | ⟨_, q, hq1, hq2, hl⟩
  · rw [usub_of_le (by omega)] at hl
    omega
  · have hqE := flags_lt_of_some hq1
    have hfq : f + 1 ≤ q := by
      apply occurrence_ge G.m_node_flags false q (f + 1) hq1
      rw [count_take_succ_of_getElem? _ _ _ hf1]
      omega
    rw [usub_of_le (by omega)] at hl
    omega

/-- The range of a valid node is defined when `num_nodes` is the number of node starts. -/
theorem node_range_defined (G : debruijn_graph) (v : Nat)
    (hnum : G.m_num_nodes = G.m_node_flags.count false)
    (hv : v < G.num_nodes) : ∃ f l, G._node_range v = some (f, l) := by
  have hv' : v < G.m_node_flags.count false := by rw [← hnum]; exact hv
  obtain ⟨f, hf⟩ := exists_occurrence G.m_node_flags false (v + 1) (by omega) (by omega)
  have hfirst := (first_edge_of_node_eq_some G v f).2 ⟨hv, hf.1, by omega⟩
  by_cases hlast : v + 1 = G.num_nodes
  · exact ⟨f, _, (node_range_eq_some G v f _).2
      ⟨hfirst, (last_edge_of_node_eq_some G v _).2 (Or.inl ⟨hlast, rfl⟩)⟩⟩
  · have hv2 : v + 1 < G.num_nodes := by omega
    have hv2' : v + 2 ≤ G.m_node_flags.count false := by
      rw [← hnum]; exact hv2
    obtain ⟨q, hq⟩ := exists_occurrence G.m_node_flags false (v + 2) (by omega) hv2'
    exact ⟨f, _, (node_range_eq_some G v f _).2
      ⟨hfirst, (last_edge_of_node_eq_some G v _).2
        (Or.inr ⟨hv2, q, hq.1, by omega, rfl⟩)⟩⟩

/-- C9: with position 0 a node start, every edge `i` lies in the range of the node
`_edge_to_node(i)`, that node is valid, and no other node range contains `i`
(the ranges are non-empty and partition `[0, E-1]`). -/
theorem edge_in_node_range (G : debruijn_graph) (i : Nat)
    (hnum : G.m_num_nodes = G.m_node_flags.count false)
    (h0 : G.m_node_flags[0]? = some false)
    (hi : i < G.num_edges) :
    ∃ v f l, G._edge_to_node i = some v ∧ v < G.num_nodes ∧
      G._node_to_edge v = some f ∧ G._last_edge_of_node v = some l ∧
      f ≤ i ∧ i ≤ l ∧ l < G.num_edges ∧
      ∀ v' f' l', G._node_range v' = some (f', l') → f' ≤ i → i ≤ l' → v' = v := by
  have hiE : i < G.m_node_flags.length := hi
  have hr1 : 1 ≤ (G.m_node_flags.take (i + 1)).count false := by
    have h1 := count_take_succ_of_getElem? G.m_node_flags false 0 h0
    have h2 := count_take_mono G.m_node_flags false (show 0 + 1 ≤ i + 1 by omega)
    omega
  have hrle := count_take_le G.m_node_flags false (i + 1)
  have hri := count_take_le_self G.m_node_flags false (i + 1)
  obtain ⟨f, hf1, hf2⟩ := exists_occurrence G.m_node_flags false _ hr1 hrle
  have hv : (G.m_node_flags.take (i + 1)).count false - 1 < G.num_nodes := by
    show _ < G.m_num_nodes
    omega
  have hfirst := (first_edge_of_node_eq_some G _ f).2 ⟨hv, hf1, by omega⟩
  have hfi : f ≤ i := by
    have := occurrence_lt G.m_node_flags false f (i + 1) (by omega)
    omega
  obtain ⟨f', l, hrange⟩ := node_range_defined G _ hnum hv
  obtain ⟨hfirst', hlast⟩ := (node_range_eq_some G _ f' l).1 hrange
  have hne := node_range_nonempty G _ f' l hrange
  have hil : i ≤ l := by
    rcases (last_edge_of_node_eq_some G _ l).1 hlast with ⟨_, hl⟩ | ⟨_, q, hq1, hq2, hl⟩
    · rw [usub_of_le (by omega)] at hl
      have : i < G.num_edges := hi
      omega
    · have hqE := flags_lt_of_some hq1
      have hiq : i + 1 ≤ q :=
        occurrence_ge G.m_node_flags false q (i + 1) hq1 (by omega)
      have : q < G.m_node_flags.length := hqE
      rw [usub_of_le (by omega)] at hl
      omega
  refine ⟨_, f, l, ?_, hv, hfirst, hlast, hfi, hil, hne.2, ?_⟩
  · unfold _edge_to_node
    simp only [hi, if_true, m_node_rank, rank, show i + 1 ≤ G.m_node_flags.length by omega,
      Option.bind_eq_bind, Option.some_bind, Option.pure_def]
    rw [usub_of_le hr1]
  · intro v' f2 l2 hr2 hf2i hil2
    obtain ⟨hfst2, hlst2⟩ := (node_range_eq_some G v' f2 l2).1 hr2
    obtain ⟨hv2, hg1, hg2⟩ := (first_edge_of_node_eq_some G v' f2).1 hfst2
    have hlow : v' + 1 ≤ (G.m_node_flags.take (i + 1)).count false := by
      have h1 := count_take_succ_of_getElem? G.m_node_flags false f2 hg1
      have h2 := count_take_mono G.m_node_flags false (show f2 + 1 ≤ i + 1 by omega)
      omega
    have hhigh : (G.m_node_flags.take (i + 1)).count false ≤ v' + 1 := by
      rcases (last_edge_of_node_eq_some G v' l2).1 hlst2 with ⟨hlastnode, _⟩ | ⟨_, q, hq1, hq2, hl⟩
      · have : G.num_nodes = G.m_num_nodes := rfl
        omega
      · have hqE : q < G.m_node_flags.length := flags_lt_of_some hq1
        have hfq : f2 + 1 ≤ q := by
          apply occurrence_ge G.m_node_flags false q (f2 + 1) hq1
          rw [count_take_succ_of_getElem? _ _ _ hg1]
          omega
        rw [usub_of_le (by omega)] at hl
        have := count_take_mono G.m_node_flags false (show i + 1 ≤ q by omega)
        omega
    omega

/-! ## Degrees -/

/-- C8: for a valid node `v` with range `[first, last]`, `outdegree(v)` is the range size,
minus one exactly when the range is the single `$` edge; so it is 0 iff the only edge of `v`
is the `$` edge. -/
theorem outdegree_spec (G : debruijn_graph) (v : Nat)
    (hnum : G.m_num_nodes = G.m_node_flags.count false)
    (hlen : G.m_edges.length = G.m_node_flags.length)
    (hv : v < G.num_nodes) :
    ∃ first last w, G._node_range v = some (first, last) ∧ G.m_edges[first]? = some w ∧
      first ≤ last ∧
      G.outdegree v = some (if last - first + 1 = 1 ∧ _strip_edge_flag w = 0
        then (last - first + 1) - 1 else last - first + 1) ∧
      (G.outdegree v = some 0 ↔ (last - first + 1 = 1 ∧ _strip_edge_flag w = 0)) := by
  obtain ⟨first, last, hr⟩ := node_range_defined G v hnum hv
  obtain ⟨hfl, hlE⟩ := node_range_nonempty G v first last hr
  have hE : G.num_edges = G.m_node_flags.length := rfl
  have hfW : first < G.m_edges.length := by omega
  have hout : G.outdegree v = some (if last - first + 1 = 1 ∧ _strip_edge_flag G.m_edges[first] = 0
        then (last - first + 1) - 1 else last - first + 1) := by
    unfold outdegree
    simp only [hv, if_true, hr, Option.bind_eq_bind, Option.some_bind, Option.pure_def,
      List.getElem?_eq_getElem hfW]
    rw [usub_of_le hfl]
    by_cases hc : last - first + 1 = 1 ∧ _strip_edge_flag G.m_edges[first] = 0
    · rw [if_pos hc, if_pos hc, usub_of_le (by omega)]
    · rw [if_neg hc, if_neg hc, usub_of_le (by omega), Nat.sub_zero]
  refine ⟨first, last, G.m_edges[first], hr, List.getElem?_eq_getElem hfW, hfl, hout, ?_⟩
  rw [hout]
  by_cases hc : last - first + 1 = 1 ∧ _strip_edge_flag G.m_edges[first] = 0
  · rw [if_pos hc]
    simp only [Option.some.injEq]
    constructor
    · intro _; exact hc
    · intro _; omega
  · rw [if_neg hc]
    simp only [Option.some.injEq]
    constructor
    · intro h; omega
    · intro h; exact absurd h hc

theorem init_max_ranks_getElem? (edges : List Nat) (x : Nat) (hx : x < sigma + 1) :
    (_init_max_ranks edges)[x]? = some (edges.count (_with_edge_flag x false)) := by
  unfold _init_max_ranks
  rw [List.getElem?_map, List.getElem?_range hx]
  simp

/-- The call `_next_edge(i, x)` for an edge `i` of a constructed index: it has a result, which is not
before `i` and not beyond `E`. -/
theorem next_edge_ge (G : debruijn_graph) (i x : Nat)
    (hlen : G.m_edges.length = G.m_node_flags.length)
    (hmax : G.m_edge_max_ranks = _init_max_ranks G.m_edges)
    (hx : x < sigma + 1) (hi : i < G.num_edges) :
    ∃ i', G._next_edge i x = some i' ∧ i ≤ i' ∧ i' ≤ G.num_edges := by
  unfold _next_edge
  by_cases h1 : usub G.num_edges 1 ≤ i
  · exact ⟨i, by rw [if_pos h1], Nat.le_refl _, by omega⟩
  · rw [if_neg h1]
    have hE : G.num_edges = G.m_node_flags.length := rfl
    have hiW : 1 + i ≤ G.m_edges.length := by omega
    simp only [rank, hiW, if_true, hmax, init_max_ranks_getElem? _ _ hx, Option.bind_eq_bind,
      Option.some_bind, Option.pure_def]
    by_cases h2 : G.m_edges.count (_with_edge_flag x false) <
        1 + (G.m_edges.take (1 + i)).count (_with_edge_flag x false)
    · exact ⟨G.num_edges, by rw [if_pos h2], by omega, Nat.le_refl _⟩
    · rw [if_neg h2]
      obtain ⟨q, hq1, hq2⟩ := exists_occurrence G.m_edges (_with_edge_flag x false)
        (1 + (G.m_edges.take (1 + i)).count (_with_edge_flag x false)) (by omega) (by omega)
      have hqW := getElem?_eq_some_lt hq1
      have hiq : 1 + i ≤ q :=
        occurrence_ge G.m_edges _ q (1 + i) hq1 (by omega)
      exact ⟨q, (select_eq_some _ _ _ _).2 ⟨hq1, hq2⟩, by omega, by omega⟩

theorem backward_eq_some_lt (G : debruijn_graph) (j y i_first : Nat)
    (hy : G._symbol_access j = some y) (hy0 : y ≠ 0)
    (hb : G._backward j = some i_first) :
    y < sigma + 1 ∧ i_first < G.m_edges.length := by
  unfold _backward at hb
  by_cases hj : j < G.num_edges
  · rw [if_pos hj, hy] at hb
    simp only [Option.bind_eq_bind, Option.some_bind, hy0, if_false] at hb
    cases hs : G._symbol_start y with
    | none => simp [hs] at hb
    | some s =>
      have hys : y < sigma + 1 := by
        by_contra hcon
        simp [_symbol_start, hcon] at hs
      cases hd : G._rank_distance s (j + 1) with
      | none => simp [hs, hd] at hb
      | some nth =>
        simp only [hs, hd, Option.some_bind] at hb
        exact ⟨hys, getElem?_eq_some_lt ((select_eq_some _ _ _ _).1 hb).1⟩
  · rw [if_neg hj] at hb
    exact Option.noConfusion hb

/-- Where the call `_backward(j)` has a result: `indegree(v)` is 0 when the last symbol `y` of `v` is `$`; otherwise, with
`i_first = _backward(j)` and `i_last = _next_edge(i_first, y)`, `i_first ≤ i_last`, the two
ranks are ordered (the subtraction does not wrap) and `indegree(v)` is one plus the number of
positions in `[i_first, i_last)` holding `with(y, 1)`. -/
theorem indegree_spec (G : debruijn_graph) (v j y : Nat)
    (hlen : G.m_edges.length = G.m_node_flags.length)
    (hmax : G.m_edge_max_ranks = _init_max_ranks G.m_edges)
    (hj : G._node_to_edge v = some j)
    (hy : G._symbol_access j = some y) :
    (y = 0 → G.indegree v = some 0) ∧
    (y ≠ 0 → ∀ i_first, G._backward j = some i_first →
      ∃ i_last a b, G._next_edge i_first y = some i_last ∧ i_first ≤ i_last ∧
        rank G.m_edges i_last (_with_edge_flag y true) = some a ∧
        rank G.m_edges i_first (_with_edge_flag y true) = some b ∧ b ≤ a ∧
        G.indegree v = some (1 + ((G.m_edges.take i_last).drop i_first).count
          (_with_edge_flag y true)) ∧
        ∃ d, G.indegree v = some d ∧ 1 ≤ d) := by
  constructor
  · intro hy0
    subst hy0
    simp [indegree, hj, hy]
  · intro hy0 i_first hb
    obtain ⟨hys, hiW⟩ := backward_eq_some_lt G j y i_first hy hy0 hb
    have hE : G.num_edges = G.m_node_flags.length := rfl
    obtain ⟨i_last, hn, hle, hleE⟩ := next_edge_ge G i_first y hlen hmax hys (by omega)
    have hmono := count_take_mono G.m_edges (_with_edge_flag y true) hle
    have hbound := count_take_le_self G.m_edges (_with_edge_flag y true) i_last
    have hin : G.indegree v = some (1 + ((G.m_edges.take i_last).drop i_first).count
          (_with_edge_flag y true)) := by
      unfold indegree
      simp only [hj, hy, hb, hn, hy0, if_false, rank, show i_last ≤ G.m_edges.length by omega,
        show i_first ≤ G.m_edges.length by omega, if_true, Option.bind_eq_bind,
        Option.some_bind, Option.pure_def]
      rw [usub_of_le hmono, count_drop_take _ _ hle, Nat.add_comm]
    refine ⟨i_last, _, _, hn, hle, ?_, ?_, hmono, hin, _, hin, by omega⟩
    · simp [rank, show i_last ≤ G.m_edges.length by omega]
    · simp [rank, show i_first ≤ G.m_edges.length by omega]

/-! ## Edge symbols -/

theorem with_edge_flag_eq (x : Nat) (f : Bool) : _with_edge_flag x f = 2 * x + f.toNat := by
  unfold _with_edge_flag
  rw [Nat.shiftLeft_eq, Nat.pow_one, Nat.mul_comm]
  cases f
  · simp
  · have := @Nat.mul_add_lt_is_or 1 1 (by decide) x
    simpa using this.symm

theorem strip_with_edge_flag (x : Nat) (f : Bool) :
    _strip_edge_flag (_with_edge_flag x f) = x := by
  rw [with_edge_flag_eq]
  unfold _strip_edge_flag
  rw [Nat.shiftRight_eq_div_pow, Nat.pow_one]
  cases f
  · simp
  · simp; omega

/-! ## Forward -/

/-- A node start `j` is the first edge of the node `_edge_to_node(j)`. -/
theorem node_start_roundtrip (G : debruijn_graph) (j : Nat)
    (hnum : G.m_num_nodes = G.m_node_flags.count false)
    (hj : G.m_node_flags[j]? = some false) :
    G._edge_to_node j = some ((G.m_node_flags.take j).count false) ∧
    G._node_to_edge ((G.m_node_flags.take j).count false) = some j := by
  have hjE : j < G.m_node_flags.length := getElem?_eq_some_lt hj
  have hsucc := count_take_succ_of_getElem? G.m_node_flags false j hj
  have hle := count_take_le G.m_node_flags false (j + 1)
  constructor
  · unfold _edge_to_node
    rw [if_pos (show j < G.num_edges from hjE)]
    simp only [m_node_rank, rank, if_pos (show j + 1 ≤ G.m_node_flags.length by omega),
      Option.bind_eq_bind, Option.some_bind, Option.pure_def]
    rw [usub_of_le (by omega), hsucc]
    rfl
  · rw [node_to_edge_eq_first]
    exact (first_edge_of_node_eq_some G _ j).2 ⟨by show _ < G.m_num_nodes; omega, hj, rfl⟩

theorem forward_of_strip_zero (G : debruijn_graph) (i w : Nat) (hi : i < G.num_edges)
    (hw : G.m_edges[i]? = some w) (h0 : _strip_edge_flag w = 0) :
    G._forward i = some (-1) := by
  unfold _forward
  rw [if_pos hi, hw]
  simp only [Option.bind_eq_bind, Option.some_bind]
  rw [if_pos h0]
  rfl

theorem forward_ne_neg_one (G : debruijn_graph) (i w : Nat)
    (hw : G.m_edges[i]? = some w) (h0 : _strip_edge_flag w ≠ 0) :
    G._forward i ≠ some (-1) := by
  unfold _forward
  by_cases hi : i < G.num_edges
  · rw [if_pos hi, hw]
    simp only [Option.bind_eq_bind, Option.some_bind]
    rw [if_neg h0]
    intro h
    simp only [Option.bind_eq_some, Option.pure_def, Option.some.injEq] at h
    obtain ⟨_, _, _, _, _, _, _, _, h⟩ := h
    have : (0 : Int) ≤ -1 := by rw [← h]; exact Int.ofNat_nonneg _
    omega
  · rw [if_neg hi]
    exact fun h => Option.noConfusion h

/-- Following an unflagged `x`-edge of a well-formed index: the result is a node start inside
the block `[F[x-1], F[x])` of the nodes whose last symbol is `x`, namely the one numbered by
the rank of the edge among the unflagged `x` entries. -/
theorem forward_unflagged (G : debruijn_graph) (hwf : WellFormed G) (i x : Nat)
    (hx0 : x ≠ 0) (hxs : x ≤ sigma)
    (hw : G.m_edges[i]? = some (_with_edge_flag x false)) :
    ∃ j, G._forward i = some (Int.ofNat j) ∧
      G.m_node_flags[j]? = some false ∧
      (G.m_node_flags.take j).count false =
        (G.m_node_flags.take (G.m_symbol_ends.getD (x - 1) 0)).count false +
          (G.m_edges.take i).count (_with_edge_flag x false) ∧
      G.m_symbol_ends.getD (x - 1) 0 ≤ j ∧ j < G.m_symbol_ends.getD x 0 := by
  obtain ⟨hlen, hFlen, hFE, hsorted, _, hstart, hcount⟩ := hwf
  have hxlt : x < sigma + 1 := by omega
  have hiW : i < G.m_edges.length := getElem?_eq_some_lt hw
  have hi : i < G.num_edges := by show i < G.m_node_flags.length; omega
  have hc := hcount x hxlt hx0
  have h1 := count_take_succ_of_getElem? G.m_edges _ i hw
  have h2 := count_take_le G.m_edges (_with_edge_flag x false) (i + 1)
  have heE : G.m_symbol_ends.getD x 0 ≤ G.m_node_flags.length := by
    rw [← hFE]; exact getD_mono hsorted hxs (by omega)
  have hse : G.m_symbol_ends.getD (x - 1) 0 < G.m_symbol_ends.getD x 0 :=
    occurrence_lt G.m_node_flags false _ _ (by omega)
  have hs := hstart x hxlt hx0 (by omega)
  have h3 := count_take_succ_of_getElem? G.m_node_flags false _ hs
  have h4 := count_take_le G.m_node_flags false (G.m_symbol_ends.getD x 0)
  obtain ⟨j, hj1, hj2⟩ := exists_occurrence G.m_node_flags false
    ((G.m_node_flags.take (G.m_symbol_ends.getD (x - 1) 0 + 1)).count false +
      (G.m_edges.take i).count (_with_edge_flag x false)) (by omega) (by omega)
  have hsj : G.m_symbol_ends.getD (x - 1) 0 ≤ j :=
    occurrence_ge G.m_node_flags false j _ hj1 (by omega)
  have hje : j < G.m_symbol_ends.getD x 0 :=
    occurrence_lt G.m_node_flags false _ _ (by omega)
  refine ⟨j, ?_, hj1, by omega, hsj, hje⟩
  have hsel : G.m_node_select
      ((G.m_node_flags.take (G.m_symbol_ends.getD (x - 1) 0 + 1)).count false +
        (G.m_edges.take i).count (_with_edge_flag x false)) = some j :=
    (node_select_eq_some G _ j).2 ⟨hj1, hj2⟩
  have hsym : G._symbol_start x = some (G.m_symbol_ends.getD (x - 1) 0) := by
    unfold _symbol_start
    rw [if_pos hxlt, if_neg hx0, List.getD_eq_getElem?_getD]
    rw [List.getElem?_eq_getElem (show x - 1 < G.m_symbol_ends.length by omega)]
    rfl
  unfold _forward
  rw [if_pos hi, hw]
  simp only [Option.bind_eq_bind, Option.some_bind, strip_with_edge_flag]
  rw [if_neg hx0, hsym]
  simp only [Option.some_bind, rank, m_node_rank, if_pos (show i ≤ G.m_edges.length by omega),
    if_pos (show G.m_symbol_ends.getD (x - 1) 0 + 1 ≤ G.m_node_flags.length by omega)]
  rw [hsel]
  rfl

/-- C2: in a well-formed index, `_forward(i) = -1` exactly for the edges labelled `$`, and
following an unflagged `x`-edge (`x ≠ 0`) gives a valid edge index that is the first edge of
its node, a node whose last symbol is `x`. -/
theorem forward_spec (G : debruijn_graph) (hwf : WellFormed G)
    (hnum : G.m_num_nodes = G.m_node_flags.count false)
    (i : Nat) (hi : i < G.num_edges) :
    (G._forward i = some (-1) ↔ ∃ w, G.m_edges[i]? = some w ∧ _strip_edge_flag w = 0) ∧
    (∀ x, x ≠ 0 → x ≤ sigma → G.m_edges[i]? = some (_with_edge_flag x false) →
      ∃ j, G._forward i = some (Int.ofNat j) ∧ j < G.num_edges ∧
        G.m_node_flags[j]? = some false ∧
        (∃ v, G._edge_to_node j = some v ∧ G._node_to_edge v = some j) ∧
        G._symbol_access j = some x) := by
  have hiW : i < G.m_edges.length := by
    rw [hwf.1]; exact hi
  constructor
  · constructor
    · intro h
      refine ⟨G.m_edges[i], List.getElem?_eq_getElem hiW, ?_⟩
      by_contra h0
      exact forward_ne_neg_one G i _ (List.getElem?_eq_getElem hiW) h0 h
    · rintro ⟨w, hw, h0⟩
      exact forward_of_strip_zero G i w hi hw h0
  · intro x hx0 hxs hw
    obtain ⟨j, hf, hj1, _, hsj, hje⟩ := forward_unflagged G hwf i x hx0 hxs hw
    have hjE : j < G.num_edges := flags_lt_of_some hj1
    obtain ⟨hr1, hr2⟩ := node_start_roundtrip G j hnum hj1
    refine ⟨j, hf, hjE, hj1, ⟨_, hr1, hr2⟩, ?_⟩
    obtain ⟨_, hFlen, _, hsorted, _, _, _⟩ := hwf
    unfold _symbol_access
    rw [if_pos hjE]
    congr 1
    apply upper_bound_eq _ _ hsorted x (by omega) hje
    intro y hy
    exact Nat.le_trans (getD_mono hsorted (show y ≤ x - 1 by omega) (by omega)) hsj

/-! ## The sample index: where the code departs from the intended graph operations -/

/-- C1: on the sample index the root node `$$` (node 0, edges `[0, 1]`) has no `G`-edge, and
`outgoing(0, G)` asks `W.select` for the 0-th occurrence of `with(G, 0) = 6` (the rank of 6 in
`W[0..1]` is 0), a call outside the contract of `select`; it does not return -1. -/
theorem outgoing_selects_zeroth :
    WellFormed sampleGraph ∧
    sampleGraph._node_range 0 = some (0, 1) ∧
    rank sampleGraph.m_edges (1 + 1) (_with_edge_flag 3 false) = some 0 ∧
    select sampleGraph.m_edges 0 (_with_edge_flag 3 false) = none ∧
    sampleGraph.outgoing 0 3 = none ∧
    sampleGraph.outgoing 0 3 ≠ some (-1) := by
  decide

/-- C3: on the sample index the unflagged edge 4 (`ACG`, source node 3 with range `[4, 4]`)
has `_forward(4) = 6`, but `_backward(6) = 6`, which is outside `[4, 4]`. -/
theorem backward_forward_leaves_range :
    WellFormed sampleGraph ∧
    sampleGraph.m_edges[4]? = some (_with_edge_flag 3 false) ∧
    sampleGraph._forward 4 = some 6 ∧
    sampleGraph._backward 6 = some 6 ∧
    sampleGraph._edge_to_node 4 = some 3 ∧
    sampleGraph._node_to_edge 3 = some 4 ∧
    sampleGraph._last_edge_of_node 3 = some 4 ∧
    ¬ (6 ≤ 4) := by
  decide

/-- C4: on the sample index edge 3 (`$CC`, the only edge of node 2, last node symbol `C`)
has `_backward(3) = 2` and `_forward(2) = 4`, while the first edge of its node is 3. -/
theorem forward_backward_not_first_edge :
    WellFormed sampleGraph ∧
    sampleGraph._symbol_access 3 = some 2 ∧
    sampleGraph._backward 3 = some 2 ∧
    sampleGraph._forward 2 = some 4 ∧
    sampleGraph._edge_to_node 3 = some 2 ∧
    sampleGraph._node_to_edge 2 = some 3 ∧
    sampleGraph._node_range 2 = some (3, 3) ∧
    (4 : Int) ≠ 3 := by
  decide

/-- C5: on the sample index edge 5 is the flagged `G`-edge `CCG` and edge 4 (`ACG`) is its
unflagged representative; `_forward(4) = 6` but `_forward(5) = 7`, and `outgoing` through the
flagged edge (node 4) gives node 6 while through the representative (node 3) it gives node 5. -/
theorem forward_flagged_differs :
    WellFormed sampleGraph ∧
    sampleGraph.m_edges[5]? = some (_with_edge_flag 3 true) ∧
    sampleGraph.m_edges[4]? = some (_with_edge_flag 3 false) ∧
    sampleGraph._forward 4 = some 6 ∧
    sampleGraph._forward 5 = some 7 ∧
    sampleGraph.outgoing 3 3 = some 5 ∧
    sampleGraph.outgoing 4 3 = some 6 := by
  decide

/-! ## Incoming -/

/-- The root and the symbol `$`: on the sample index node 0 has the label `$$`, and
`$` followed by that label without its last symbol is again the label of node 0, yet
`incoming(0, $)` is -1, not node 0. -/
theorem incoming_root_is_not_found :
    WellFormed sampleGraph ∧
    sampleGraph.node_label 0 = some [0, 0] ∧
    sampleGraph.node_label 0 = some (0 :: ([0, 0] : List Nat).dropLast) ∧
    (∀ search, incoming search sampleGraph 0 0 = some (-1)) ∧
    (∀ search, incoming search sampleGraph 0 0 ≠ some (Int.ofNat 0)) := by
  refine ⟨by decide, by decide, by decide, fun _ => rfl, fun search h => ?_⟩
  have h1 : incoming search sampleGraph 0 0 = some (-1) := rfl
  rw [h1] at h
  exact absurd h (by decide)

/-- The guard of `incoming`: for a valid node `v` whose last symbol is `$` and every symbol `x`,
`incoming(v, x)` returns -1. -/
theorem incoming_of_dollar (search : Nat → Nat → Nat → (Nat → Option Nat) → Option Int)
    (G : debruijn_graph) (v x j : Nat)
    (hv : v < G.num_nodes) (hx : x < sigma + 1)
    (hj : G._node_to_edge v = some j)
    (hy : G._symbol_access j = some 0) :
    incoming search G v x = some (-1) := by
  unfold incoming
  rw [if_pos hv, if_pos hx, hj]
  simp only [Option.bind_eq_bind, Option.some_bind, hy]
  rfl

/-- Instance of `incoming_of_dollar` on the sample index: node 0 (`$$`) and the symbol `C`. -/
theorem incoming_of_dollar_witness :
    sampleGraph._node_to_edge 0 = some 0 ∧ sampleGraph._symbol_access 0 = some 0 ∧
    incoming (fun _ _ _ _ => some 0) sampleGraph 0 2 = some (-1) :=
  ⟨by decide, by decide,
    incoming_of_dollar (fun _ _ _ _ => some 0) sampleGraph 0 2 0 (by decide) (by decide)
      (by decide) (by decide)⟩

/-! ## Instances of the theorems on the sample index -/

/-- Instance of C2 on the sample index at edge 4 (`ACG`). -/
theorem forward_spec_witness :
    WellFormed sampleGraph ∧
    ((sampleGraph._forward 4 = some (-1) ↔
        ∃ w, sampleGraph.m_edges[4]? = some w ∧ _strip_edge_flag w = 0) ∧
      (∀ x, x ≠ 0 → x ≤ sigma → sampleGraph.m_edges[4]? = some (_with_edge_flag x false) →
        ∃ j, sampleGraph._forward 4 = some (Int.ofNat j) ∧ j < sampleGraph.num_edges ∧
          sampleGraph.m_node_flags[j]? = some false ∧
          (∃ v, sampleGraph._edge_to_node j = some v ∧ sampleGraph._node_to_edge v = some j) ∧
          sampleGraph._symbol_access j = some x)) :=
  ⟨by decide, forward_spec sampleGraph (by decide) (by decide) 4 (by decide)⟩

/-- Instance of `indegree_spec` on the sample index at node 2 (`$C`, first edge 3, last symbol `C`). -/
theorem indegree_spec_witness :
    (sampleGraph._node_to_edge 2 = some 3 ∧ sampleGraph._symbol_access 3 = some 2 ∧
      sampleGraph._backward 3 = some 2) ∧
    ∃ i_last a b, sampleGraph._next_edge 2 2 = some i_last ∧ 2 ≤ i_last ∧
      rank sampleGraph.m_edges i_last (_with_edge_flag 2 true) = some a ∧
      rank sampleGraph.m_edges 2 (_with_edge_flag 2 true) = some b ∧ b ≤ a ∧
      sampleGraph.indegree 2 = some (1 + ((sampleGraph.m_edges.take i_last).drop 2).count
        (_with_edge_flag 2 true)) ∧
      ∃ d, sampleGraph.indegree 2 = some d ∧ 1 ≤ d :=
  ⟨by decide,
    (indegree_spec sampleGraph 2 3 2 (by decide) (by decide) (by decide) (by decide)).2
      (by decide) 2 (by decide)⟩

/-- Instance of C8 on the sample index at node 6 (`GG`, whose only edge is `GG$`). -/
theorem outdegree_spec_witness :
    (6 < sampleGraph.num_nodes) ∧
    ∃ first last w, sampleGraph._node_range 6 = some (first, last) ∧
      sampleGraph.m_edges[first]? = some w ∧ first ≤ last ∧
      sampleGraph.outdegree 6 = some (if last - first + 1 = 1 ∧ _strip_edge_flag w = 0
        then (last - first + 1) - 1 else last - first + 1) ∧
      (sampleGraph.outdegree 6 = some 0 ↔ (last - first + 1 = 1 ∧ _strip_edge_flag w = 0)) :=
  ⟨by decide, outdegree_spec sampleGraph 6 (by decide) (by decide) (by decide)⟩

/-- Instance of C9 on the sample index at edge 1 (the second edge of the root). -/
theorem edge_in_node_range_witness :
    (1 < sampleGraph.num_edges) ∧
    ∃ v f l, sampleGraph._edge_to_node 1 = some v ∧ v < sampleGraph.num_nodes ∧
      sampleGraph._node_to_edge v = some f ∧ sampleGraph._last_edge_of_node v = some l ∧
      f ≤ 1 ∧ 1 ≤ l ∧ l < sampleGraph.num_edges ∧
      ∀ v' f' l', sampleGraph._node_range v' = some (f', l') → f' ≤ 1 → 1 ≤ l' → v' = v :=
  ⟨by decide, edge_in_node_range sampleGraph 1 (by decide) (by decide) (by decide)⟩

/-- Instance of C10 on the sample index at edge 5. -/
theorem symbol_access_least_witness :
    (5 < sampleGraph.m_symbol_ends.getD sigma 0) ∧
    ∃ x, sampleGraph._symbol_access 5 = some x ∧ x ≤ sigma ∧
      5 < sampleGraph.m_symbol_ends.getD x 0 ∧
      (∀ y, y < x → sampleGraph.m_symbol_ends.getD y 0 ≤ 5) ∧
      ∃ s, sampleGraph._symbol_start x = some s ∧ s ≤ 5 ∧
        5 < sampleGraph.m_symbol_ends.getD x 0 :=
  ⟨by decide, symbol_access_least sampleGraph 5 (by decide) (by decide) (by decide) (by decide)⟩

end debruijn_graph


namespace debruijn_graph

/-! ## Predecessor enumeration -/

theorem rank_of_le {α : Type} [DecidableEq α] (v : List α) (i : Nat) (c : α)
    (h : i ≤ v.length) : rank v i c = some ((v.take i).count c) := by
  unfold rank
  rw [if_pos h]

/-- With position 0 a node start, the node of an edge and the last edge of that node are
defined. -/
theorem edge_to_node_last_defined (G : debruijn_graph) (i : Nat)
    (hnum : G.m_num_nodes = G.m_node_flags.count false)
    (h0 : G.m_node_flags[0]? = some false)
    (hi : i < G.num_edges) :
    ∃ u l, G._edge_to_node i = some u ∧ G._last_edge_of_node u = some l := by
  have hiE : i < G.m_node_flags.length := hi
  have hr1 : 1 ≤ (G.m_node_flags.take (i + 1)).count false := by
    have h1 := count_take_succ_of_getElem? G.m_node_flags false 0 h0
    have h2 := count_take_mono G.m_node_flags false (show 0 + 1 ≤ i + 1 by omega)
    omega
  have hrle := count_take_le G.m_node_flags false (i + 1)
  have hv : (G.m_node_flags.take (i + 1)).count false - 1 < G.num_nodes := by
    show _ < G.m_num_nodes
    omega
  obtain ⟨f, l, hrange⟩ := node_range_defined G _ hnum hv
  refine ⟨_, l, ?_, ((node_range_eq_some G _ f l).1 hrange).2⟩
  unfold _edge_to_node
  simp only [hi, if_true, m_node_rank, rank, show i + 1 ≤ G.m_node_flags.length by omega,
    Option.bind_eq_bind, Option.some_bind, Option.pure_def]
  rw [usub_of_le hr1]

theorem all_preds_loop_spec (G : debruijn_graph) (selector : Nat → Option Nat) :
    ∀ n i result,
      (∀ t, i ≤ t → t < i + n → ∃ e u l, selector t = some e ∧
        G._edge_to_node e = some u ∧ G._last_edge_of_node u = some l) →
      ∃ out, G.all_preds_loop selector n i result = some out ∧
        out.length = result.length + n ∧
        (∀ p, p < result.length → out[p]? = result[p]?) ∧
        (∀ t, i ≤ t → t < i + n → ∃ e u l, selector t = some e ∧
          G._edge_to_node e = some u ∧ G._last_edge_of_node u = some l ∧
          out[result.length + (t - i)]? = some (e, l)) := by
  intro n
  induction n with
  | zero =>
    intro i result _
    exact ⟨result, rfl, rfl, fun _ _ => rfl, fun t h1 h2 => by omega⟩
  | succ n ih =>
    intro i result hdef
    obtain ⟨e, u, l, hs, hu, hl⟩ := hdef i (Nat.le_refl _) (by omega)
    obtain ⟨out, ho, hlen, hpre, hrest⟩ := ih (i + 1) (result ++ [(e, l)])
      (fun t h1 h2 => hdef t (by omega) (by omega))
    rw [List.length_append, List.length_singleton] at hlen
    refine ⟨out, ?_, by omega, ?_, ?_⟩
    · unfold all_preds_loop
      simp only [hs, hu, hl, Option.bind_eq_bind, Option.some_bind]
      exact ho
    · intro p hp
      rw [hpre p (by rw [List.length_append]; omega), List.getElem?_append_left hp]
    · intro t h1 h2
      by_cases ht : t = i
      · subst ht
        refine ⟨e, u, l, hs, hu, hl, ?_⟩
        rw [Nat.sub_self, Nat.add_zero,
          hpre _ (by rw [List.length_append, List.length_singleton]; omega),
          List.getElem?_append_right (Nat.le_refl _)]
        simp
      · obtain ⟨e', u', l', hs', hu', hl', hout⟩ := hrest t (by omega) (by omega)
        refine ⟨e', u', l', hs', hu', hl', ?_⟩
        rw [List.length_append, List.length_singleton] at hout
        rw [← hout]
        congr 1
        omega

/-- Where the call `_backward(first)` has a result: `all_preds` of a node `v = (first, last)` with last symbol `y`: empty when `y = 0`;
otherwise, with `n = rank(i_last, with(y,1)) - rank(i_first, with(y,1)) + 1`, it has exactly
`2 * n` entries, the first `n` of them the default pair `(0, 0)` and entry `n + i` the pair
`(e_i, _last_edge_of_node(_edge_to_node(e_i)))` of the `i`-th predecessor edge. -/
theorem all_preds_spec (G : debruijn_graph) (v : Nat × Nat) (y : Nat)
    (hlen : G.m_edges.length = G.m_node_flags.length)
    (hmax : G.m_edge_max_ranks = _init_max_ranks G.m_edges)
    (hnum : G.m_num_nodes = G.m_node_flags.count false)
    (h0 : G.m_node_flags[0]? = some false)
    (hy : G._symbol_access v.1 = some y) :
    (y = 0 → G.all_preds v = some []) ∧
    (y ≠ 0 → ∀ i_first, G._backward v.1 = some i_first →
      ∃ i_last a b result, G._next_edge i_first y = some i_last ∧
        rank G.m_edges i_last (_with_edge_flag y true) = some a ∧
        rank G.m_edges i_first (_with_edge_flag y true) = some b ∧ b ≤ a ∧
        G.all_preds v = some result ∧
        result.length = 2 * (a - b + 1) ∧
        (∀ i, i < a - b + 1 → result[i]? = some (0, 0)) ∧
        (∀ i, i < a - b + 1 → ∃ e u l,
          (if i = 0 then some i_first
            else select G.m_edges (b + i) (_with_edge_flag y true)) = some e ∧
          G._edge_to_node e = some u ∧ G._last_edge_of_node u = some l ∧
          result[a - b + 1 + i]? = some (e, l))) := by
  constructor
  · intro hy0
    subst hy0
    simp [all_preds, hy]
  · intro hy0 i_first hb
    obtain ⟨hys, hiW⟩ := backward_eq_some_lt G v.1 y i_first hy hy0 hb
    have hE : G.num_edges = G.m_node_flags.length := rfl
    obtain ⟨i_last, hn, hle, hleE⟩ := next_edge_ge G i_first y hlen hmax hys (by omega)
    have hmono := count_take_mono G.m_edges (_with_edge_flag y true) hle
    have e1 : i_last ≤ G.m_edges.length := by omega
    have e2 : i_first ≤ G.m_edges.length := by omega
    have hdef : ∀ t, 0 ≤ t → t < 0 + ((G.m_edges.take i_last).count (_with_edge_flag y true) -
        (G.m_edges.take i_first).count (_with_edge_flag y true) + 1) →
        ∃ e u l, (if t = 0 then some i_first
            else select G.m_edges ((G.m_edges.take i_first).count (_with_edge_flag y true) + t)
              (_with_edge_flag y true)) = some e ∧
          G._edge_to_node e = some u ∧ G._last_edge_of_node u = some l := by
      intro t _ ht
      by_cases ht0 : t = 0
      · obtain ⟨u, l, hu, hl⟩ := edge_to_node_last_defined G i_first hnum h0 (by omega)
        exact ⟨i_first, u, l, by rw [if_pos ht0], hu, hl⟩
      · have hcl := count_take_le G.m_edges (_with_edge_flag y true) i_last
        obtain ⟨e, he⟩ := select_defined G.m_edges (_with_edge_flag y true)
          ((G.m_edges.take i_first).count (_with_edge_flag y true) + t) (by omega) (by omega)
        have heW := getElem?_eq_some_lt ((select_eq_some _ _ _ _).1 he).1
        obtain ⟨u, l, hu, hl⟩ := edge_to_node_last_defined G e hnum h0 (by omega)
        exact ⟨e, u, l, by rw [if_neg ht0]; exact he, hu, hl⟩
    obtain ⟨out, ho, holen, hpre, hrest⟩ := all_preds_loop_spec G _ _ 0
      (List.replicate ((G.m_edges.take i_last).count (_with_edge_flag y true) -
        (G.m_edges.take i_first).count (_with_edge_flag y true) + 1) ((0 : Nat), (0 : Nat))) hdef
    rw [List.length_replicate] at holen hpre hrest
    refine ⟨i_last, (G.m_edges.take i_last).count (_with_edge_flag y true),
      (G.m_edges.take i_first).count (_with_edge_flag y true), out, hn, rank_of_le _ _ _ e1,
      rank_of_le _ _ _ e2, hmono, ?_, ?_, ?_, ?_⟩
    · unfold all_preds
      dsimp only
      rw [hy]
      simp only [Option.bind_eq_bind, Option.some_bind]
      rw [if_neg hy0, hb]
      simp only [Option.some_bind]
      rw [hn]
      simp only [Option.some_bind]
      rw [rank_of_le _ _ _ e2, Option.some_bind, rank_of_le _ _ _ e1, Option.some_bind,
        usub_of_le hmono]
      exact ho
    · omega
    · intro i hi
      rw [hpre i hi, List.getElem?_replicate, if_pos hi]
    · intro i hi
      obtain ⟨e, u, l, h1, h2, h3, h4⟩ := hrest i (Nat.zero_le _) (by omega)
      exact ⟨e, u, l, h1, h2, h3, by simpa using h4⟩

/-- Instance of `all_preds_spec` on the sample index at node 2 = `(3, 3)` (`$C`, last symbol `C`). -/
theorem all_preds_spec_witness :
    (sampleGraph._symbol_access 3 = some 2 ∧ sampleGraph._backward 3 = some 2) ∧
    ∃ i_last a b result, sampleGraph._next_edge 2 2 = some i_last ∧
      rank sampleGraph.m_edges i_last (_with_edge_flag 2 true) = some a ∧
      rank sampleGraph.m_edges 2 (_with_edge_flag 2 true) = some b ∧ b ≤ a ∧
      sampleGraph.all_preds (3, 3) = some result ∧
      result.length = 2 * (a - b + 1) ∧
      (∀ i, i < a - b + 1 → result[i]? = some (0, 0)) ∧
      (∀ i, i < a - b + 1 → ∃ e u l,
        (if i = 0 then some 2
          else select sampleGraph.m_edges (b + i) (_with_edge_flag 2 true)) = some e ∧
        sampleGraph._edge_to_node e = some u ∧ sampleGraph._last_edge_of_node u = some l ∧
        result[a - b + 1 + i]? = some (e, l)) :=
  ⟨by decide,
    (all_preds_spec sampleGraph (3, 3) 2 (by decide) (by decide) (by decide)
      (by decide) (by decide)).2 (by decide) 2 (by decide)⟩

/-- C13: on the second sample index node 2 (`GA`, edges `[2, 3]`) has the flagged `C`-edge 2
and the unflagged `G`-edge 3; `outgoing(2, C)` and `outgoing(2, G)` both return node 5
(`AG`), because `_forward` takes the flagged edge 2 one node too far (past the end of the
block of the nodes that end in `C`); the unflagged `C`-edge of node 1 (`CA`) reaches node 4
(`AC`). -/
theorem outgoing_distinct_symbols_collide :
    WellFormed sampleGraph2 ∧
    sampleGraph2.num_nodes = 8 ∧
    sampleGraph2._node_range 2 = some (2, 3) ∧
    sampleGraph2.m_edges[2]? = some (_with_edge_flag 2 true) ∧
    sampleGraph2.m_edges[3]? = some (_with_edge_flag 3 false) ∧
    sampleGraph2._forward 2 = some 6 ∧
    sampleGraph2._forward 3 = some 6 ∧
    sampleGraph2.outgoing 2 2 = some 5 ∧
    sampleGraph2.outgoing 2 3 = some 5 ∧
    sampleGraph2.outgoing 2 2 ≠ some (-1) ∧
    sampleGraph2.outgoing 2 2 = sampleGraph2.outgoing 2 3 ∧
    sampleGraph2.outgoing 1 2 = some 4 := by
  decide

end debruijn_graph

namespace debruijn_graph

/-! ## Labels -/

theorem node_label_loop_succ (G : debruijn_graph) (n pos i : Nat) (label : List Nat) :
    G._node_label_loop (n + 1) pos i label =
      (G._symbol_access i).bind fun x => (G._map_symbol x).bind fun m =>
        if usub (usub G.k pos) 1 < label.length then
          if x = 0 then some (label.set (usub (usub G.k pos) 1) m)
          else (G._backward i).bind fun i' =>
            G._node_label_loop n (pos + 1) i' (label.set (usub (usub G.k pos) 1) m)
        else none := rfl

theorem node_label_loop_length (G : debruijn_graph) :
    ∀ n pos i label out, G._node_label_loop n pos i label = some out →
      out.length = label.length := by
  intro n
  induction n with
  | zero =>
    intro pos i label out h
    simp only [_node_label_loop, Option.some.injEq] at h
    rw [← h]
  | succ n ih =>
    intro pos i label out h
    rw [node_label_loop_succ] at h
    cases hx : G._symbol_access i with
    | none => rw [hx] at h; exact Option.noConfusion h
    | some x =>
      rw [hx, Option.some_bind] at h
      cases hm : G._map_symbol x with
      | none => rw [hm] at h; exact Option.noConfusion h
      | some m =>
        rw [hm, Option.some_bind] at h
        by_cases hidx : usub (usub G.k pos) 1 < label.length
        · rw [if_pos hidx] at h
          by_cases hx0 : x = 0
          · rw [if_pos hx0] at h
            have := Option.some.inj h
            rw [← this, List.length_set]
          · rw [if_neg hx0] at h
            cases hb : G._backward i with
            | none => rw [hb] at h; exact Option.noConfusion h
            | some i' =>
              rw [hb, Option.some_bind] at h
              rw [ih _ _ _ _ h, List.length_set]
        · rw [if_neg hidx] at h
          exact Option.noConfusion h

/-- The walk of `_node_label_from_edge_given_buffer` along the edges `e0 :: es`
(`e_(p+1) = _backward(e_p)`), started with loop counter `pos`: step `p` writes
`map(_symbol_access(e_p))` at position `k - pos - 1 - p`; the other positions are kept. -/
theorem node_label_loop_spec (G : debruijn_graph) :
    ∀ (es : List Nat) (e0 n pos : Nat) (label : List Nat),
      1 ≤ pos → pos + n = G.k → G.k ≤ label.length + 1 → es.length < n →
      List.Chain (fun a b => G._backward a = some b) e0 es →
      (∀ p e, (e0 :: es)[p]? = some e → ∃ x c, G._symbol_access e = some x ∧
        G._map_symbol x = some c ∧ (p < es.length → x ≠ 0)) →
      (∃ e, (e0 :: es)[es.length]? = some e ∧ (G._symbol_access e = some 0 ∨
        (es.length + 1 = n ∧ ∃ e', G._backward e = some e'))) →
      ∃ out, G._node_label_loop n pos e0 label = some out ∧ out.length = label.length ∧
        (∀ p e x c, (e0 :: es)[p]? = some e → G._symbol_access e = some x →
          G._map_symbol x = some c → out[G.k - pos - 1 - p]? = some c) ∧
        (∀ t, (t + es.length + 1 + pos < G.k ∨ G.k ≤ t + pos) → out[t]? = label[t]?) := by
  intro es
  induction es with
  | nil =>
    intro e0 n pos label hpos hn hlab hlt _ hsym hend
    obtain ⟨x, c, hx, hc, _⟩ := hsym 0 e0 (by simp)
    obtain ⟨e, he, hfin⟩ := hend
    have hee : e = e0 := by simpa using he.symm
    subst hee
    obtain ⟨n', rfl⟩ : ∃ n', n = n' + 1 := ⟨n - 1, by simp at hlt; omega⟩
    have hidx : usub (usub G.k pos) 1 = G.k - pos - 1 := by
      rw [usub_of_le (show pos ≤ G.k by omega), usub_of_le (by omega)]
    have hidxlt : G.k - pos - 1 < label.length := by omega
    have hout : G._node_label_loop (n' + 1) pos e label =
        some (label.set (G.k - pos - 1) c) := by
      rw [node_label_loop_succ, hx, Option.some_bind, hc, Option.some_bind, hidx,
        if_pos hidxlt]
      by_cases hx0 : x = 0
      · rw [if_pos hx0]
      · rw [if_neg hx0]
        rcases hfin with h0 | ⟨hn1, e', he'⟩
        · rw [hx] at h0
          exact absurd (Option.some.inj h0) hx0
        · have hn0 : n' = 0 := by simpa using hn1.symm
          subst hn0
          rw [he', Option.some_bind]
          rfl
    refine ⟨_, hout, List.length_set _ _ _, ?_, ?_⟩
    · intro p e' x' c' hp hx' hc'
      cases p with
      | zero =>
        have : e' = e := by simpa using hp.symm
        subst this
        rw [hx] at hx'
        have := Option.some.inj hx'
        subst this
        rw [hc] at hc'
        have := Option.some.inj hc'
        subst this
        rw [Nat.sub_zero, List.getElem?_set_self hidxlt]
      | succ p => simp at hp
    · intro t ht
      simp only [List.length_nil, Nat.add_zero] at ht
      rw [List.getElem?_set_ne (by omega)]
  | cons e1 es ih =>
    intro e0 n pos label hpos hn hlab hlt hchain hsym hend
    obtain ⟨x, c, hx, hc, hx0⟩ := hsym 0 e0 (by simp)
    have hx0 : x ≠ 0 := hx0 (by simp)
    obtain ⟨hb, hchain'⟩ := List.chain_cons.1 hchain
    simp only [List.length_cons] at hlt
    obtain ⟨n', rfl⟩ : ∃ n', n = n' + 1 := ⟨n - 1, by omega⟩
    have hidx : usub (usub G.k pos) 1 = G.k - pos - 1 := by
      rw [usub_of_le (show pos ≤ G.k by omega), usub_of_le (by omega)]
    have hidxlt : G.k - pos - 1 < label.length := by omega
    obtain ⟨out, hout, holen, hpos', hkeep⟩ := ih e1 n' (pos + 1)
      (label.set (G.k - pos - 1) c) (by omega) (by omega)
      (by rw [List.length_set]; exact hlab) (by omega) hchain'
      (by
        intro p e hp
        obtain ⟨x', c', h1, h2, h3⟩ := hsym (p + 1) e (by simpa using hp)
        exact ⟨x', c', h1, h2, fun hlt' => h3 (by simp only [List.length_cons]; omega)⟩)
      (by
        obtain ⟨e, he, hfin⟩ := hend
        refine ⟨e, by simpa using he, ?_⟩
        rcases hfin with h0 | ⟨hn1, hb'⟩
        · exact Or.inl h0
        · exact Or.inr ⟨by simp only [List.length_cons] at hn1; omega, hb'⟩)
    rw [List.length_set] at holen
    refine ⟨out, ?_, holen, ?_, ?_⟩
    · rw [node_label_loop_succ, hx, Option.some_bind, hc, Option.some_bind, hidx,
        if_pos hidxlt, if_neg hx0, hb, Option.some_bind]
      exact hout
    · intro p e x' c' hp hx' hc'
      cases p with
      | zero =>
        have : e = e0 := by simpa using hp.symm
        subst this
        rw [hx] at hx'
        have := Option.some.inj hx'
        subst this
        rw [hc] at hc'
        have := Option.some.inj hc'
        subst this
        rw [Nat.sub_zero, hkeep _ (Or.inr (by omega)), List.getElem?_set_self hidxlt]
      | succ p =>
        have := hpos' p e x' c' (by simpa using hp) hx' hc'
        rw [show G.k - pos - 1 - (p + 1) = G.k - (pos + 1) - 1 - p by omega]
        exact this
    · intro t ht
      simp only [List.length_cons] at ht
      rw [hkeep t (by omega), List.getElem?_set_ne (by omega)]

/-- Where the calls of the backward walk have results: for a valid node `v` and `k ≥ 2`, along the walk `e_0 = _node_to_edge(v)`,
`e_(p+1) = _backward(e_p)` (the edges `e0 :: es`, whose steps before the last read no `$`),
`node_label(v)` has length `k - 1`, holds `map(_symbol_access(e_p))` at position `k - 2 - p`
for every step made, and `map(0)` at every position left of the last step made; when the
last step reads `$`, its position holds `map(0)` as well. -/
theorem node_label_spec (G : debruijn_graph) (v e0 fill : Nat) (es : List Nat)
    (hk : 2 ≤ G.k)
    (hv : G._node_to_edge v = some e0)
    (hfill : G._map_symbol 0 = some fill)
    (hlen : es.length + 2 ≤ G.k)
    (hchain : List.Chain (fun a b => G._backward a = some b) e0 es)
    (hsym : ∀ p e, (e0 :: es)[p]? = some e → ∃ x c, G._symbol_access e = some x ∧
      G._map_symbol x = some c ∧ (p < es.length → x ≠ 0))
    (hend : ∃ e, (e0 :: es)[es.length]? = some e ∧ (G._symbol_access e = some 0 ∨
      (es.length + 2 = G.k ∧ ∃ e', G._backward e = some e'))) :
    ∃ label, G.node_label v = some label ∧ label.length = G.k - 1 ∧
      (∀ p e x c, (e0 :: es)[p]? = some e → G._symbol_access e = some x →
        G._map_symbol x = some c → label[G.k - 2 - p]? = some c) ∧
      (∀ t, t + es.length + 2 < G.k → label[t]? = some fill) ∧
      (∀ e, (e0 :: es)[es.length]? = some e → G._symbol_access e = some 0 →
        ∀ t, t + es.length + 2 ≤ G.k → label[t]? = some fill) := by
  have hk1 : usub G.k 1 = G.k - 1 := usub_of_le (by omega)
  obtain ⟨out, hout, holen, hpos, hkeep⟩ := node_label_loop_spec G es e0 (G.k - 1) 1
    (List.replicate (G.k - 1) fill) (Nat.le_refl _) (by omega)
    (by rw [List.length_replicate]; omega) (by omega) hchain hsym (by
      obtain ⟨e, he, hfin⟩ := hend
      refine ⟨e, he, ?_⟩
      rcases hfin with h0 | ⟨h1, h2⟩
      · exact Or.inl h0
      · exact Or.inr ⟨by omega, h2⟩)
  rw [List.length_replicate] at holen
  have hleft : ∀ t, t + es.length + 2 < G.k → out[t]? = some fill := by
    intro t ht
    rw [hkeep t (Or.inl (by omega)), List.getElem?_replicate, if_pos (by omega)]
  refine ⟨out, ?_, holen, ?_, hleft, ?_⟩
  · unfold node_label _node_label_from_edge_given_buffer
    rw [hv, Option.bind_eq_bind, Option.some_bind, hfill, Option.some_bind, hk1]
    exact hout
  · intro p e x c hp hx hc
    have := hpos p e x c hp hx hc
    rw [show G.k - 2 - p = G.k - 1 - 1 - p by omega]
    exact this
  · intro e he h0 t ht
    by_cases hlt : t + es.length + 2 < G.k
    · exact hleft t hlt
    · have ht' : t = G.k - 2 - es.length := by omega
      have := hpos es.length e 0 fill he h0 hfill
      rw [ht', show G.k - 2 - es.length = G.k - 1 - 1 - es.length by omega]
      exact this

/-- Instance of `node_label_spec` on the sample index at node 5 (`CG`): the walk is edge 6, then
`_backward(6) = 6`, and the label is `[3, 3]`. -/
theorem node_label_spec_witness :
    (sampleGraph._node_to_edge 5 = some 6 ∧ sampleGraph._backward 6 = some 6) ∧
    ∃ label, sampleGraph.node_label 5 = some label ∧ label.length = sampleGraph.k - 1 ∧
      (∀ p e x c, (6 :: [6])[p]? = some e → sampleGraph._symbol_access e = some x →
        sampleGraph._map_symbol x = some c → label[sampleGraph.k - 2 - p]? = some c) ∧
      (∀ t, t + [6].length + 2 < sampleGraph.k → label[t]? = some 0) ∧
      (∀ e, (6 :: [6])[[6].length]? = some e → sampleGraph._symbol_access e = some 0 →
        ∀ t, t + [6].length + 2 ≤ sampleGraph.k → label[t]? = some 0) :=
  ⟨by decide,
    node_label_spec sampleGraph 5 6 0 [6] (by decide) (by decide) (by decide) (by decide)
      (List.Chain.cons (by decide) List.Chain.nil)
      (by
        intro p e hp
        match p, hp with
        | 0, hp =>
          have : e = 6 := by simpa using hp.symm
          subst this
          exact ⟨3, 3, by decide, by decide, fun _ => by decide⟩
        | 1, hp =>
          have : e = 6 := by simpa using hp.symm
          subst this
          exact ⟨3, 3, by decide, by decide, fun h => absurd h (by decide)⟩
        | p + 2, hp => simp at hp)
      ⟨6, by decide, Or.inr ⟨by decide, 6, by decide⟩⟩⟩

end debruijn_graph

namespace debruijn_graph

/-! ## Edge labels -/

/-- In a well-formed index two edges of one node (no node start after `f` up to `i`) have the
same last node symbol. -/
theorem upper_bound_same_node (G : debruijn_graph) (hwf : WellFormed G) (f i : Nat)
    (hfi : f ≤ i) (hi : i < G.num_edges)
    (hcount : (G.m_node_flags.take (f + 1)).count false =
      (G.m_node_flags.take (i + 1)).count false) :
    upper_bound G.m_symbol_ends f = upper_bound G.m_symbol_ends i := by
  obtain ⟨_, hFlen, hFE, hsorted, _, hstart, _⟩ := hwf
  obtain ⟨h1, h2, h3⟩ := upper_bound_spec G.m_symbol_ends i hsorted
  have hiE : i < G.m_node_flags.length := hi
  have hxle : upper_bound G.m_symbol_ends i ≤ sigma := by
    by_contra hcon
    have := h2 sigma (by omega)
    omega
  apply upper_bound_eq _ _ hsorted _ (by omega)
  · have := h3 _ (Nat.le_refl _) (by omega)
    omega
  · intro y hy
    by_contra hcon
    have hq := h2 y hy
    have hs := hstart (y + 1) (by omega) (by omega) (by
      rw [Nat.add_sub_cancel]; omega)
    rw [Nat.add_sub_cancel] at hs
    have c1 := count_take_succ_of_getElem? G.m_node_flags false _ hs
    have c2 := count_take_mono G.m_node_flags false
      (show f + 1 ≤ G.m_symbol_ends.getD y 0 by omega)
    have c3 := count_take_mono G.m_node_flags false
      (show G.m_symbol_ends.getD y 0 + 1 ≤ i + 1 by omega)
    omega

theorem backward_same_node (G : debruijn_graph) (f i : Nat)
    (hf : f < G.num_edges) (hi : i < G.num_edges)
    (hsym : upper_bound G.m_symbol_ends f = upper_bound G.m_symbol_ends i)
    (hcount : (G.m_node_flags.take (f + 1)).count false =
      (G.m_node_flags.take (i + 1)).count false) :
    G._backward f = G._backward i := by
  have hfE : f + 1 ≤ G.m_node_flags.length := hf
  have hiE : i + 1 ≤ G.m_node_flags.length := hi
  have hd : ∀ s, G._rank_distance s (f + 1) = G._rank_distance s (i + 1) := by
    intro s
    unfold _rank_distance m_node_rank
    rw [rank_of_le _ _ _ hfE, rank_of_le _ _ _ hiE, hcount]
  unfold _backward _symbol_access
  rw [if_pos hf, if_pos hi, if_pos hf, if_pos hi, hsym]
  simp only [hd]

theorem node_label_loop_same_start (G : debruijn_graph) (n pos f i : Nat) (label : List Nat)
    (h1 : G._symbol_access f = G._symbol_access i) (h2 : G._backward f = G._backward i) :
    G._node_label_loop n pos f label = G._node_label_loop n pos i label := by
  cases n with
  | zero => rfl
  | succ n => rw [node_label_loop_succ, node_label_loop_succ, h1, h2]

theorem node_label_unfold (G : debruijn_graph) (v : Nat) :
    G.node_label v = (G._node_to_edge v).bind fun i => (G._map_symbol 0).bind fun fill =>
      G._node_label_loop (usub G.k 1) 1 i (List.replicate (usub G.k 1) fill) := rfl

theorem node_label_from_edge_unfold (G : debruijn_graph) (i : Nat) :
    G.node_label_from_edge i = (G._map_symbol 0).bind fun fill =>
      G._node_label_loop (usub G.k 1) 1 i (List.replicate (usub G.k 1) fill) := rfl

theorem edge_label_unfold (G : debruijn_graph) (i : Nat) :
    G.edge_label i = (G._map_symbol 0).bind fun fill =>
      (G._node_label_loop (usub G.k 1) 1 i (List.replicate G.k fill)).bind fun label =>
        (G.m_edges[i]?).bind fun w => (G._map_symbol (_strip_edge_flag w)).bind fun m =>
          if usub G.k 1 < label.length then some (label.set (usub G.k 1) m) else none := rfl

/-- The walk never writes the position behind a buffer of `k - 1` symbols: a longer buffer
keeps its extra last entry. -/
theorem node_label_loop_append (G : debruijn_graph) (z : Nat) :
    ∀ n pos i label, 1 ≤ pos → pos + n = G.k → G.k ≤ label.length + 1 →
      G._node_label_loop n pos i (label ++ [z]) =
        (G._node_label_loop n pos i label).map (fun l => l ++ [z]) := by
  intro n
  induction n with
  | zero => intro pos i label _ _ _; rfl
  | succ n ih =>
    intro pos i label hpos hn hlab
    have hidx : usub (usub G.k pos) 1 = G.k - pos - 1 := by
      rw [usub_of_le (show pos ≤ G.k by omega), usub_of_le (by omega)]
    have hidxlt : G.k - pos - 1 < label.length := by omega
    have hidxlt' : G.k - pos - 1 < (label ++ [z]).length := by
      rw [List.length_append]; omega
    rw [node_label_loop_succ, node_label_loop_succ, hidx]
    cases hx : G._symbol_access i with
    | none => rfl
    | some x =>
      rw [Option.some_bind, Option.some_bind]
      cases hm : G._map_symbol x with
      | none => rfl
      | some m =>
        rw [Option.some_bind, Option.some_bind, if_pos hidxlt, if_pos hidxlt',
          List.set_append_left _ _ hidxlt]
        by_cases hx0 : x = 0
        · rw [if_pos hx0, if_pos hx0]; rfl
        · rw [if_neg hx0, if_neg hx0]
          cases hb : G._backward i with
          | none => rfl
          | some i' =>
            rw [Option.some_bind, Option.some_bind]
            exact ih (pos + 1) i' _ (by omega) (by omega) (by rw [List.length_set]; exact hlab)

/-- The edge label is the label read from the edge followed by the mapped edge symbol. -/
theorem edge_label_eq (G : debruijn_graph) (hk : 1 ≤ G.k) (i : Nat) :
    G.edge_label i = (G.node_label_from_edge i).bind fun s =>
      (G.m_edges[i]?).bind fun w => (G._map_symbol (_strip_edge_flag w)).bind fun m =>
        some (s ++ [m]) := by
  have hk1 : usub G.k 1 = G.k - 1 := usub_of_le hk
  rw [edge_label_unfold, node_label_from_edge_unfold]
  cases hfill : G._map_symbol 0 with
  | none => rfl
  | some fill =>
    rw [Option.some_bind, Option.some_bind, hk1]
    have hrep : List.replicate G.k fill = List.replicate (G.k - 1) fill ++ [fill] := by
      rw [← List.replicate_succ']
      congr 1
      omega
    rw [hrep, node_label_loop_append G fill _ _ _ _ (Nat.le_refl _) (by omega)
      (by rw [List.length_replicate]; omega)]
    cases hloop : G._node_label_loop (G.k - 1) 1 i (List.replicate (G.k - 1) fill) with
    | none => rfl
    | some s =>
      have hs : s.length = G.k - 1 := by
        rw [node_label_loop_length G _ _ _ _ _ hloop, List.length_replicate]
      rw [Option.map_some', Option.some_bind, Option.some_bind]
      cases hw : G.m_edges[i]? with
      | none => rfl
      | some w =>
        rw [Option.some_bind, Option.some_bind]
        cases hm : G._map_symbol (_strip_edge_flag w) with
        | none => rfl
        | some m =>
          rw [Option.some_bind, Option.some_bind,
            if_pos (by rw [List.length_append, List.length_singleton]; omega),
            List.set_append_right _ _ (by omega), hs, Nat.sub_self]
          rfl

/-- C12 (as stated): on the sample index edge 0 (`$$A`) has the edge label `[0, 0, 1]`, whose
last `k - 1 = 2` symbols are `[0, 1]`, while the label of its node `_edge_to_node(0) = 0` is
`[0, 0]`, the first two symbols. -/
theorem edge_label_suffix_differs :
    WellFormed sampleGraph ∧
    sampleGraph.edge_label 0 = some [0, 0, 1] ∧
    sampleGraph._edge_to_node 0 = some 0 ∧
    sampleGraph.node_label 0 = some [0, 0] ∧
    ([0, 0, 1] : List Nat).drop (3 - (sampleGraph.k - 1)) = [0, 1] ∧
    sampleGraph.node_label 0 ≠ some (([0, 0, 1] : List Nat).drop (3 - (sampleGraph.k - 1))) := by
  decide

/-- The label of the source node: for every edge `i` of a well-formed index with `k ≥ 2`, the
label of the node `_edge_to_node(i)` is the label read from edge `i`, and it is the prefix of length
`k - 1` of `edge_label(i)`: the edge label is that node label followed by the mapped edge
symbol, and it is defined whenever the node label and the mapped symbol are. -/
theorem edge_label_prefix (G : debruijn_graph) (hwf : WellFormed G)
    (hnum : G.m_num_nodes = G.m_node_flags.count false)
    (hk : 2 ≤ G.k) (i : Nat) (hi : i < G.num_edges) :
    ∃ v, G._edge_to_node i = some v ∧
      G.node_label v = G.node_label_from_edge i ∧
      (∀ l, G.edge_label i = some l →
        l.length = G.k ∧ G.node_label v = some (l.take (G.k - 1))) ∧
      (∀ s w m, G.node_label v = some s → G.m_edges[i]? = some w →
        G._map_symbol (_strip_edge_flag w) = some m → G.edge_label i = some (s ++ [m])) := by
  have hiE : i < G.m_node_flags.length := hi
  have h0 : G.m_node_flags[0]? = some false := hwf.2.2.2.2.1 (by omega)
  have hr1 : 1 ≤ (G.m_node_flags.take (i + 1)).count false := by
    have h1 := count_take_succ_of_getElem? G.m_node_flags false 0 h0
    have h2 := count_take_mono G.m_node_flags false (show 0 + 1 ≤ i + 1 by omega)
    omega
  have hrle := count_take_le G.m_node_flags false (i + 1)
  obtain ⟨f, hf1, hf2⟩ := exists_occurrence G.m_node_flags false _ hr1 hrle
  have hfE : f < G.num_edges := flags_lt_of_some hf1
  have hfi : f ≤ i := by
    have := occurrence_lt G.m_node_flags false f (i + 1) (by omega)
    omega
  have hcount : (G.m_node_flags.take (f + 1)).count false =
      (G.m_node_flags.take (i + 1)).count false := by
    rw [count_take_succ_of_getElem? _ _ _ hf1]; exact hf2
  obtain ⟨hr1', hr2'⟩ := node_start_roundtrip G f hnum hf1
  have hnode : G._edge_to_node i = some ((G.m_node_flags.take f).count false) := by
    unfold _edge_to_node
    rw [if_pos hi]
    unfold m_node_rank
    rw [rank_of_le _ _ _ (show i + 1 ≤ G.m_node_flags.length by omega), Option.bind_eq_bind,
      Option.some_bind, usub_of_le hr1]
    show some _ = some _
    congr 1
    omega
  have hsym := upper_bound_same_node G hwf f i hfi hi hcount
  have hsa : G._symbol_access f = G._symbol_access i := by
    unfold _symbol_access
    rw [if_pos hfE, if_pos hi, hsym]
  have hback := backward_same_node G f i hfE hi hsym hcount
  have hlabel : G.node_label ((G.m_node_flags.take f).count false) =
      G.node_label_from_edge i := by
    rw [node_label_unfold, node_label_from_edge_unfold, hr2', Option.some_bind]
    simp only [node_label_loop_same_start G _ _ f i _ hsa hback]
  have heq := edge_label_eq G (by omega) i
  refine ⟨_, hnode, hlabel, ?_, ?_⟩
  · intro l hl
    rw [heq] at hl
    cases hs : G.node_label_from_edge i with
    | none => rw [hs] at hl; exact Option.noConfusion hl
    | some s =>
      rw [hs, Option.some_bind] at hl
      cases hw : G.m_edges[i]? with
      | none => rw [hw] at hl; exact Option.noConfusion hl
      | some w =>
        rw [hw, Option.some_bind] at hl
        cases hm : G._map_symbol (_strip_edge_flag w) with
        | none => rw [hm] at hl; exact Option.noConfusion hl
        | some m =>
          rw [hm, Option.some_bind] at hl
          have hl' := Option.some.inj hl
          have hslen : s.length = G.k - 1 := by
            rw [node_label_from_edge_unfold] at hs
            cases hfill : G._map_symbol 0 with
            | none => rw [hfill] at hs; exact Option.noConfusion hs
            | some fill =>
              rw [hfill, Option.some_bind] at hs
              rw [node_label_loop_length G _ _ _ _ _ hs, List.length_replicate]
              exact usub_of_le (by omega)
          subst hl'
          refine ⟨by rw [List.length_append, List.length_singleton]; omega, ?_⟩
          rw [hlabel, hs, List.take_left' hslen]
  · intro s w m hs hw hm
    rw [hlabel] at hs
    rw [heq, hs, Option.some_bind, hw, Option.some_bind, hm, Option.some_bind]

/-- Instance of `edge_label_prefix` on the sample index at edge 4 (`ACG`). -/
theorem edge_label_prefix_witness :
    (WellFormed sampleGraph ∧ sampleGraph.edge_label 4 = some [2, 2, 3]) ∧
    ∃ v, sampleGraph._edge_to_node 4 = some v ∧
      sampleGraph.node_label v = sampleGraph.node_label_from_edge 4 ∧
      (∀ l, sampleGraph.edge_label 4 = some l →
        l.length = sampleGraph.k ∧ sampleGraph.node_label v = some (l.take (sampleGraph.k - 1))) ∧
      (∀ s w m, sampleGraph.node_label v = some s → sampleGraph.m_edges[4]? = some w →
        sampleGraph._map_symbol (_strip_edge_flag w) = some m →
        sampleGraph.edge_label 4 = some (s ++ [m])) :=
  ⟨by decide, edge_label_prefix sampleGraph (by decide) (by decide) (by decide) 4 (by decide)⟩

end debruijn_graph

namespace debruijn_graph

/-! ## Loading from packed edges -/

theorem decode_block_succ (unpack : Nat → Nat → Nat × Bool × Bool) (num_edges block : Nat)
    (n i current_edge : Nat) (first : List Bool) (edges : List Nat) :
    decode_block unpack num_edges block (n + 1) i current_edge first edges =
      if current_edge < num_edges then
        decode_block unpack num_edges block n (i + 1) (current_edge + 1)
          (first.set current_edge (!(unpack block i).2.1))
          (edges.set current_edge
            ((((unpack block i).1 <<< 1) ||| (!(unpack block i).2.2).toNat) % 256))
      else (current_edge, first, edges) := rfl

theorem decode_loop_succ (cap : Nat) (unpack : Nat → Nat → Nat × Bool × Bool)
    (words : List Nat) (num_edges num_blocks fuel current_edge current_block pos : Nat)
    (first : List Bool) (edges : List Nat) :
    decode_loop cap unpack words num_edges num_blocks (fuel + 1) current_edge current_block pos
        first edges =
      if current_edge < num_edges ∧ current_block < num_blocks then
        (words[pos]?).bind fun block =>
          decode_loop cap unpack words num_edges num_blocks fuel
            (decode_block unpack num_edges block cap 0 current_edge first edges).1
            current_block (pos + 1)
            (decode_block unpack num_edges block cap 0 current_edge first edges).2.1
            (decode_block unpack num_edges block cap 0 current_edge first edges).2.2
      else some (first, edges) := rfl

theorem load_from_packed_edges_unfold (cap : Nat) (unpack : Nat → Nat → Nat × Bool × Bool)
    (words alphabet : List Nat) :
    load_from_packed_edges cap unpack words alphabet =
      if sigma + 2 ≤ words.length then
        (words[usub words.length (sigma + 2) + sigma + 1]?).bind fun k =>
          (((words.drop (usub words.length (sigma + 2))).take (sigma + 1))[sigma]?).bind
            fun num_edges =>
              (decode_loop cap unpack words num_edges (usub words.length (sigma + 2))
                num_edges 0 0 0 (List.replicate num_edges false)
                (List.replicate num_edges 0)).bind fun r =>
                some (construct k r.1 r.2
                  ((words.drop (usub words.length (sigma + 2))).take (sigma + 1)) alphabet)
      else none := rfl

theorem decode_block_spec (unpack : Nat → Nat → Nat × Bool × Bool) (num_edges block : Nat) :
    ∀ n i current_edge (first : List Bool) (edges : List Nat),
      current_edge ≤ num_edges → first.length = num_edges → edges.length = num_edges →
      (decode_block unpack num_edges block n i current_edge first edges).1 =
        min (current_edge + n) num_edges ∧
      (decode_block unpack num_edges block n i current_edge first edges).2.1.length =
        num_edges ∧
      (decode_block unpack num_edges block n i current_edge first edges).2.2.length =
        num_edges ∧
      (∀ p, p < current_edge →
        (decode_block unpack num_edges block n i current_edge first edges).2.1[p]? = first[p]? ∧
        (decode_block unpack num_edges block n i current_edge first edges).2.2[p]? = edges[p]?) ∧
      (∀ j, current_edge + j < min (current_edge + n) num_edges →
        (decode_block unpack num_edges block n i current_edge first edges).2.1[current_edge + j]?
          = some (!(unpack block (i + j)).2.1) ∧
        (decode_block unpack num_edges block n i current_edge first edges).2.2[current_edge + j]?
          = some ((((unpack block (i + j)).1 <<< 1) |||
              (!(unpack block (i + j)).2.2).toNat) % 256)) := by
  intro n
  induction n with
  | zero =>
    intro i ce first edges hce hf he
    refine ⟨by simp [decode_block, hce], hf, he, fun p _ => ⟨rfl, rfl⟩, fun j hj => ?_⟩
    rw [Nat.add_zero, Nat.min_eq_left hce] at hj
    omega
  | succ n ih =>
    intro i ce first edges hce hf he
    rw [decode_block_succ]
    by_cases hlt : ce < num_edges
    · rw [if_pos hlt]
      obtain ⟨h1, h2, h3, h4, h5⟩ := ih (i + 1) (ce + 1)
        (first.set ce (!(unpack block i).2.1))
        (edges.set ce ((((unpack block i).1 <<< 1) ||| (!(unpack block i).2.2).toNat) % 256))
        hlt (by rw [List.length_set]; exact hf) (by rw [List.length_set]; exact he)
      have hmin : min (ce + 1 + n) num_edges = min (ce + (n + 1)) num_edges := by
        rw [show ce + 1 + n = ce + (n + 1) by omega]
      refine ⟨by rw [h1, hmin], h2, h3, ?_, ?_⟩
      · intro p hp
        obtain ⟨a, b⟩ := h4 p (by omega)
        rw [a, b, List.getElem?_set_ne (by omega), List.getElem?_set_ne (by omega)]
        exact ⟨rfl, rfl⟩
      · intro j hj
        cases j with
        | zero =>
          obtain ⟨a, b⟩ := h4 ce (by omega)
          simp only [Nat.add_zero]
          constructor
          · rw [a, List.getElem?_set_self (by omega)]
          · rw [b, List.getElem?_set_self (by omega)]
        | succ j =>
          have := h5 j (by rw [hmin]; omega)
          rw [show ce + (j + 1) = ce + 1 + j by omega, show i + (j + 1) = i + 1 + j by omega]
          exact this
    · rw [if_neg hlt]
      have hceq : ce = num_edges := by omega
      refine ⟨by rw [Nat.min_eq_right (by omega)]; exact hceq, hf, he,
        fun p _ => ⟨rfl, rfl⟩, fun j hj => ?_⟩
      rw [Nat.min_eq_right (by omega)] at hj
      omega

theorem decode_loop_spec (cap : Nat) (unpack : Nat → Nat → Nat × Bool × Bool)
    (words : List Nat) (num_edges num_blocks : Nat) (hcap : 0 < cap)
    (hreads : ∀ q, q * cap < num_edges → q < words.length)
    (hblocks : 0 < num_edges → 0 < num_blocks) :
    ∀ fuel current_edge pos (first : List Bool) (edges : List Nat),
      (current_edge < num_edges → current_edge = pos * cap) →
      current_edge ≤ num_edges → num_edges ≤ current_edge + fuel →
      first.length = num_edges → edges.length = num_edges →
      ∃ r, decode_loop cap unpack words num_edges num_blocks fuel current_edge 0 pos first
          edges = some r ∧
        r.1.length = num_edges ∧ r.2.length = num_edges ∧
        (∀ p, p < current_edge → r.1[p]? = first[p]? ∧ r.2[p]? = edges[p]?) ∧
        (∀ p, current_edge ≤ p → p < num_edges →
          r.1[p]? = some (!(unpack (words.getD (p / cap) 0) (p % cap)).2.1) ∧
          r.2[p]? = some ((((unpack (words.getD (p / cap) 0) (p % cap)).1 <<< 1) |||
            (!(unpack (words.getD (p / cap) 0) (p % cap)).2.2).toNat) % 256)) := by
  intro fuel
  induction fuel with
  | zero =>
    intro ce pos first edges _ hce hfuel hf he
    have hnot : ¬ (ce < num_edges ∧ 0 < num_blocks) := fun h => by omega
    refine ⟨(first, edges), ?_, hf, he, fun p _ => ⟨rfl, rfl⟩, fun p h1 h2 => by omega⟩
    unfold decode_loop
    rw [if_neg hnot]
  | succ fuel ih =>
    intro ce pos first edges hpos hce hfuel hf he
    rw [decode_loop_succ]
    by_cases hlt : ce < num_edges
    · have hcond : ce < num_edges ∧ 0 < num_blocks := ⟨hlt, hblocks (by omega)⟩
      have hcepos := hpos hlt
      have hposlt : pos < words.length := hreads pos (by omega)
      obtain ⟨d1, d2, d3, d4, d5⟩ := decode_block_spec unpack num_edges words[pos] cap 0 ce
        first edges hce hf he
      obtain ⟨r, hr, r1, r2, r3, r4⟩ := ih
        (decode_block unpack num_edges words[pos] cap 0 ce first edges).1 (pos + 1)
        (decode_block unpack num_edges words[pos] cap 0 ce first edges).2.1
        (decode_block unpack num_edges words[pos] cap 0 ce first edges).2.2
        (by
          intro h
          rw [d1] at h ⊢
          rw [Nat.min_eq_left (by omega), Nat.add_mul, Nat.one_mul, hcepos])
        (by rw [d1]; exact Nat.min_le_right _ _)
        (by rw [d1]; omega)
        d2 d3
      refine ⟨r, ?_, r1, r2, ?_, ?_⟩
      · rw [if_pos hcond, List.getElem?_eq_getElem hposlt, Option.some_bind]
        exact hr
      · intro p hp
        obtain ⟨a, b⟩ := r3 p (by rw [d1]; omega)
        obtain ⟨c, d⟩ := d4 p hp
        exact ⟨by rw [a, c], by rw [b, d]⟩
      · intro p hp1 hp2
        by_cases hin : p < min (ce + cap) num_edges
        · obtain ⟨a, b⟩ := r3 p (by rw [d1]; exact hin)
          have hpj : p = ce + (p - ce) := by omega
          have hj : ce + (p - ce) < min (ce + cap) num_edges := by rw [← hpj]; exact hin
          obtain ⟨c, d⟩ := d5 (p - ce) hj
          rw [← hpj, Nat.zero_add] at c d
          have hjlt : p - ce < cap := by omega
          have hp' : cap * pos + (p - ce) = p := by
            rw [Nat.mul_comm, ← hcepos]; omega
          have hdiv : p / cap = pos := by
            have := Nat.mul_add_div hcap pos (p - ce)
            rw [hp', Nat.div_eq_of_lt hjlt, Nat.add_zero] at this
            exact this
          have hmod : p % cap = p - ce := by
            have := Nat.mul_add_mod cap pos (p - ce)
            rw [hp', Nat.mod_eq_of_lt hjlt] at this
            exact this
          rw [hdiv, hmod, List.getD_eq_getElem _ _ hposlt]
          exact ⟨by rw [a, c], by rw [b, d]⟩
        · exact r4 p (by rw [d1]; omega) hp2
    · have hnot : ¬ (ce < num_edges ∧ 0 < num_blocks) := fun h => hlt h.1
      refine ⟨(first, edges), ?_, hf, he, fun p _ => ⟨rfl, rfl⟩, fun p h1 h2 => by omega⟩
      rw [if_neg hnot]

/-- C15 (as stated): with a decoder of 5-bit entries (symbol, then two flags) and the input
of one block `2` and the footer `0, 0, 0, 0, 1` and `k = 3`, the only entry decodes to
`(0, true, false)`; the loaded node flag is `false = 1 - true`, taken from the second
component, and not `true = 1 - false`. -/
theorem packed_first_flag_uses_second_component :
    sample_unpack 2 0 = (0, true, false) ∧
    (load_from_packed_edges 12 sample_unpack [2, 0, 0, 0, 0, 1, 3] []).map
      (fun G => (G.k, G.m_symbol_ends, G.m_node_flags, G.m_edges)) =
      some (3, [0, 0, 0, 0, 1], [false], [1]) ∧
    (load_from_packed_edges 12 sample_unpack [2, 0, 0, 0, 0, 1, 3] []).map
      (fun G => G.m_node_flags[0]?) ≠ some (some (!(sample_unpack 2 0).2.2)) := by
  decide

/-- C15 (amended): for an input whose footer holds the counts and `k` and whose blocks hold
at least `E = F[sigma]` packed entries, the loader returns a graph with `k` and `F` from the
footer and `|W| = |L| = E`, in which, with the `i`-th entry decoded as `(symbol, b, c)`,
the stored node flag is `1 - b` (from the second component) and the stored edge symbol is
`(symbol << 1) | not c` (an 8-bit entry). -/
theorem load_from_packed_edges_spec (cap : Nat) (unpack : Nat → Nat → Nat × Bool × Bool)
    (words alphabet : List Nat) (hcap : 0 < cap) (hsize : sigma + 2 ≤ words.length)
    (hblocks : words.getD (words.length - 2) 0 ≤ (words.length - (sigma + 2)) * cap) :
    ∃ G, load_from_packed_edges cap unpack words alphabet = some G ∧
      G.k = words.getD (words.length - 1) 0 ∧
      G.m_symbol_ends = (words.drop (words.length - (sigma + 2))).take (sigma + 1) ∧
      G.m_edges.length = words.getD (words.length - 2) 0 ∧
      G.m_node_flags.length = words.getD (words.length - 2) 0 ∧
      ∀ i, i < words.getD (words.length - 2) 0 →
        G.m_node_flags[i]? = some (!(unpack (words.getD (i / cap) 0) (i % cap)).2.1) ∧
        G.m_edges[i]? = some ((((unpack (words.getD (i / cap) 0) (i % cap)).1 <<< 1) |||
          (!(unpack (words.getD (i / cap) 0) (i % cap)).2.2).toNat) % 256) := by
  have hsig : sigma = 4 := rfl
  have hnb : usub words.length (sigma + 2) = words.length - (sigma + 2) := usub_of_le hsize
  have hk : words[words.length - (sigma + 2) + sigma + 1]? =
      some (words.getD (words.length - 1) 0) := by
    rw [show words.length - (sigma + 2) + sigma + 1 = words.length - 1 by omega,
      List.getD_eq_getElem?_getD]
    rw [List.getElem?_eq_getElem (show words.length - 1 < words.length by omega)]
    rfl
  have hE : ((words.drop (words.length - (sigma + 2))).take (sigma + 1))[sigma]? =
      some (words.getD (words.length - 2) 0) := by
    rw [List.getElem?_take_of_lt (by omega), List.getElem?_drop,
      show words.length - (sigma + 2) + sigma = words.length - 2 by omega,
      List.getD_eq_getElem?_getD]
    rw [List.getElem?_eq_getElem (show words.length - 2 < words.length by omega)]
    rfl
  obtain ⟨r, hr, r1, r2, _, r4⟩ := decode_loop_spec cap unpack words
    (words.getD (words.length - 2) 0) (words.length - (sigma + 2)) hcap
    (by
      intro q hq
      have : q * cap < (words.length - (sigma + 2)) * cap := Nat.lt_of_lt_of_le hq hblocks
      have := Nat.lt_of_mul_lt_mul_right this
      omega)
    (by
      intro h
      by_contra hcon
      have : words.length - (sigma + 2) = 0 := by omega
      rw [this, Nat.zero_mul] at hblocks
      omega)
    (words.getD (words.length - 2) 0) 0 0
    (List.replicate (words.getD (words.length - 2) 0) false)
    (List.replicate (words.getD (words.length - 2) 0) 0)
    (fun _ => by rw [Nat.zero_mul]) (Nat.zero_le _) (by omega)
    (List.length_replicate _ _) (List.length_replicate _ _)
  refine ⟨construct (words.getD (words.length - 1) 0) r.1 r.2
    ((words.drop (words.length - (sigma + 2))).take (sigma + 1)) alphabet, ?_, rfl, rfl, r2, r1,
    fun i hi => r4 i (Nat.zero_le _) hi⟩
  rw [load_from_packed_edges_unfold, if_pos hsize, hnb, hk, Option.some_bind, hE,
    Option.some_bind, hr, Option.some_bind]

/-- Instance of the amended C15: one block holding the entry `(0, true, false)`. -/
theorem load_from_packed_edges_spec_witness :
    ∃ G, load_from_packed_edges 12 sample_unpack [2, 0, 0, 0, 0, 1, 3] [] = some G ∧
      G.k = ([2, 0, 0, 0, 0, 1, 3] : List Nat).getD (7 - 1) 0 ∧
      G.m_symbol_ends = (([2, 0, 0, 0, 0, 1, 3] : List Nat).drop (7 - (sigma + 2))).take
        (sigma + 1) ∧
      G.m_edges.length = ([2, 0, 0, 0, 0, 1, 3] : List Nat).getD (7 - 2) 0 ∧
      G.m_node_flags.length = ([2, 0, 0, 0, 0, 1, 3] : List Nat).getD (7 - 2) 0 ∧
      ∀ i, i < ([2, 0, 0, 0, 0, 1, 3] : List Nat).getD (7 - 2) 0 →
        G.m_node_flags[i]? = some (!(sample_unpack
          (([2, 0, 0, 0, 0, 1, 3] : List Nat).getD (i / 12) 0) (i % 12)).2.1) ∧
        G.m_edges[i]? = some ((((sample_unpack
          (([2, 0, 0, 0, 0, 1, 3] : List Nat).getD (i / 12) 0) (i % 12)).1 <<< 1) |||
          (!(sample_unpack
            (([2, 0, 0, 0, 0, 1, 3] : List Nat).getD (i / 12) 0) (i % 12)).2.2).toNat) % 256) :=
  load_from_packed_edges_spec 12 sample_unpack [2, 0, 0, 0, 0, 1, 3] [] (by decide) (by decide)
    (by decide)

end debruijn_graph

/-! ## Serialization round trip -/

namespace debruijn_graph

theorem read_vector_write_vector (v rest : List Nat) :
    read_vector (write_vector v ++ rest) = some (v, rest) := by
  simp [read_vector, write_vector]

theorem read_bits_write_bits (v : List Bool) (rest : List Nat) :
    read_bits (write_bits v ++ rest) = some (v, rest) := by
  unfold read_bits write_bits
  rw [read_vector_write_vector]
  simp only [Option.bind_eq_bind, Option.some_bind, Option.pure_def, List.map_map]
  have : ((fun w => decide (w ≠ 0)) ∘ Bool.toNat) = id := by
    funext b; cases b <;> simp
  rw [this, List.map_id]

theorem read_array_write_array (a rest : List Nat) (ha : a.length = sigma + 1) :
    read_array (write_array a ++ rest) = some (a, rest) := by
  unfold read_array write_array
  rw [if_pos (by rw [List.length_append]; omega), ← ha]
  simp

/-- C16: `load` reads the members in the order in which `serialize` writes them: loading the
output of `serialize(G)` gives back `G` (`k`, `L`, `W`, `F`, the max ranks, the alphabet and
`num_nodes`) and leaves the rest of the stream; the rank and select supports of the loaded
object answer as those of `G`. -/
theorem load_serialize (G : debruijn_graph) (rest : List Nat)
    (hF : G.m_symbol_ends.length = sigma + 1)
    (hM : G.m_edge_max_ranks.length = sigma + 1) :
    load (serialize G ++ rest) = some (G, rest) ∧
    ∀ G' rest', load (serialize G ++ rest) = some (G', rest') →
      G'.k = G.k ∧ G'.m_edges = G.m_edges ∧ G'.m_node_flags = G.m_node_flags ∧
      G'.m_symbol_ends = G.m_symbol_ends ∧ G'.m_edge_max_ranks = G.m_edge_max_ranks ∧
      G'.m_alphabet = G.m_alphabet ∧ G'.m_num_nodes = G.m_num_nodes ∧
      (∀ i, G'.m_node_rank i = G.m_node_rank i) ∧
      (∀ r, G'.m_node_select r = G.m_node_select r) := by
  have hload : load (serialize G ++ rest) = some (G, rest) := by
    unfold load serialize
    simp only [List.append_assoc, write_size, write_support, List.nil_append, List.cons_append,
      read_size, read_support, Option.bind_eq_bind, Option.some_bind, Option.pure_def,
      read_bits_write_bits, read_vector_write_vector]
    rw [read_array_write_array _ _ hF]
    simp only [Option.some_bind]
    rw [read_array_write_array _ _ hM]
    simp only [Option.some_bind, read_vector_write_vector, read_size]
  refine ⟨hload, ?_⟩
  intro G' rest' h
  rw [hload] at h
  have hG : G = G' := congrArg Prod.fst (Option.some.inj h)
  subst hG
  exact ⟨rfl, rfl, rfl, rfl, rfl, rfl, rfl, fun _ => rfl, fun _ => rfl⟩

/-- Instance of C16 on the sample index. -/
theorem load_serialize_witness :
    load (serialize sampleGraph ++ []) = some (sampleGraph, []) :=
  (load_serialize sampleGraph [] (by decide) (by decide)).1

end debruijn_graph

/-! ## The color bitmap -/

theorem visit_colors_some (num_colors color edge_idx : Nat) :
    ∀ n color_idx color_bv num_set r,
      visit_colors num_colors color edge_idx n color_idx color_bv num_set = some r →
      r.1.length = color_bv.length ∧
      (∀ p, (p < edge_idx * num_colors + color_idx ∨
          edge_idx * num_colors + color_idx + n ≤ p) → r.1[p]? = color_bv[p]?) ∧
      (∀ c, color_idx ≤ c → c < color_idx + n →
          r.1[edge_idx * num_colors + c]? = some (color.testBit c)) ∧
      r.2 = num_set + (List.range' color_idx n).countP (fun c => color.testBit c) := by
  intro n
  induction n with
  | zero =>
    intro color_idx color_bv num_set r h
    simp only [visit_colors, Option.some.injEq] at h
    subst h
    exact ⟨rfl, fun _ _ => rfl, fun c h1 h2 => by omega, by simp⟩
  | succ n ih =>
    intro color_idx color_bv num_set r h
    unfold visit_colors at h
    by_cases hpos : edge_idx * num_colors + color_idx < color_bv.length
    · rw [if_pos hpos] at h
      obtain ⟨h1, h2, h3, h4⟩ := ih _ _ _ _ h
      rw [List.length_set] at h1
      refine ⟨h1, ?_, ?_, ?_⟩
      · intro p hp
        rw [h2 p (by omega), List.getElem?_set_ne (by omega)]
      · intro c hc1 hc2
        by_cases hc : c = color_idx
        · subst hc
          rw [h2 _ (by omega), List.getElem?_set_self hpos]
        · exact h3 c (by omega) (by omega)
      · rw [h4, List.range'_succ, List.countP_cons]
        cases color.testBit color_idx
        · simp
        · simp; omega
    · rw [if_neg hpos] at h
      exact Option.noConfusion h

theorem visit_colors_defined (num_colors color edge_idx : Nat) :
    ∀ n color_idx color_bv num_set,
      edge_idx * num_colors + color_idx + n ≤ color_bv.length →
      ∃ r, visit_colors num_colors color edge_idx n color_idx color_bv num_set = some r := by
  intro n
  induction n with
  | zero => intro _ _ _ _; exact ⟨_, rfl⟩
  | succ n ih =>
    intro color_idx color_bv num_set h
    unfold visit_colors
    rw [if_pos (by omega)]
    exact ih _ _ _ (by rw [List.length_set]; omega)

/-- One call of the merge visitor: it leaves every bit outside
`[edge_idx * C, (edge_idx + 1) * C)` as it was, sets bit `edge_idx * C + c` to bit `c` of the
mask, adds the number of set mask bits to `num_set` and advances `edge_idx`. -/
theorem merge_visitor_some (num_colors color : Nat) (st st' : color_state)
    (h : merge_visitor num_colors color st = some st') :
    st'.color_bv.length = st.color_bv.length ∧
    (∀ p, (p < st.edge_idx * num_colors ∨ (st.edge_idx + 1) * num_colors ≤ p) →
      st'.color_bv[p]? = st.color_bv[p]?) ∧
    (∀ c, c < num_colors →
      st'.color_bv[st.edge_idx * num_colors + c]? = some (color.testBit c)) ∧
    st'.num_set = st.num_set + (List.range num_colors).countP (fun c => color.testBit c) ∧
    st'.edge_idx = st.edge_idx + 1 := by
  unfold merge_visitor at h
  cases hv : visit_colors num_colors color st.edge_idx num_colors 0 st.color_bv st.num_set with
  | none => simp [hv] at h
  | some r =>
    simp only [hv, Option.bind_eq_bind, Option.some_bind, Option.pure_def,
      Option.some.injEq] at h
    subst h
    obtain ⟨h1, h2, h3, h4⟩ := visit_colors_some _ _ _ _ _ _ _ _ hv
    refine ⟨h1, ?_, ?_, ?_, rfl⟩
    · intro p hp
      apply h2 p
      rcases hp with hp | hp
      · left; omega
      · right; rw [Nat.add_mul] at hp; omega
    · intro c hc
      exact h3 c (Nat.zero_le _) (by omega)
    · rw [h4, List.range_eq_range']

theorem visit_records_spec (num_colors : Nat) :
    ∀ (records : List Nat) (st : color_state),
      (st.edge_idx + records.length) * num_colors ≤ st.color_bv.length →
      ∃ st', visit_records num_colors records st = some st' ∧
        st'.color_bv.length = st.color_bv.length ∧
        (∀ p, (p < st.edge_idx * num_colors ∨
            (st.edge_idx + records.length) * num_colors ≤ p) →
          st'.color_bv[p]? = st.color_bv[p]?) ∧
        (∀ j c, j < records.length → c < num_colors →
          st'.color_bv[(st.edge_idx + j) * num_colors + c]? =
            some ((records.getD j 0).testBit c)) ∧
        st'.num_set = st.num_set +
          (records.map fun color =>
            (List.range num_colors).countP (fun c => color.testBit c)).sum ∧
        st'.edge_idx = st.edge_idx + records.length := by
  intro records
  induction records with
  | nil =>
    intro st _
    exact ⟨st, rfl, rfl, fun _ _ => rfl, fun j c hj _ => by simp at hj, by simp, by simp⟩
  | cons color rest ih =>
    intro st hlen
    simp only [List.length_cons] at hlen
    have hmul : (st.edge_idx + (rest.length + 1)) * num_colors =
        st.edge_idx * num_colors + num_colors + rest.length * num_colors := by
      rw [Nat.add_mul, Nat.add_mul, Nat.one_mul]; omega
    obtain ⟨r, hr⟩ := visit_colors_defined num_colors color st.edge_idx num_colors 0
      st.color_bv st.num_set (by omega)
    have hm : merge_visitor num_colors color st =
        some { color_bv := r.1, num_set := r.2, edge_idx := st.edge_idx + 1 } := by
      unfold merge_visitor
      simp [hr]
    obtain ⟨m1, m2, m3, m4, m5⟩ := merge_visitor_some _ _ _ _ hm
    have hmul2 : (st.edge_idx + 1 + rest.length) * num_colors =
        st.edge_idx * num_colors + num_colors + rest.length * num_colors := by
      rw [Nat.add_mul, Nat.add_mul, Nat.one_mul]
    obtain ⟨st', i1, i2, i3, i4, i5, i6⟩ :=
      ih { color_bv := r.1, num_set := r.2, edge_idx := st.edge_idx + 1 } (by
        show (st.edge_idx + 1 + rest.length) * num_colors ≤ r.1.length
        rw [m1]; omega)
    have i3' : ∀ p, (p < (st.edge_idx + 1) * num_colors ∨
        (st.edge_idx + 1 + rest.length) * num_colors ≤ p) → st'.color_bv[p]? = r.1[p]? := i3
    have i4' : ∀ j c, j < rest.length → c < num_colors →
        st'.color_bv[(st.edge_idx + 1 + j) * num_colors + c]? =
          some ((rest.getD j 0).testBit c) := i4
    have hone : (st.edge_idx + 1) * num_colors = st.edge_idx * num_colors + num_colors := by
      rw [Nat.add_mul, Nat.one_mul]
    refine ⟨st', ?_, ?_, ?_, ?_, ?_, ?_⟩
    · show visit_records num_colors (color :: rest) st = some st'
      unfold visit_records
      simp only [hm, Option.bind_eq_bind, Option.some_bind]
      exact i1
    · rw [i2]; exact m1
    · intro p hp
      simp only [List.length_cons] at hp
      rw [i3' p (by omega)]
      exact m2 p (by omega)
    · intro j c hj hc
      cases j with
      | zero =>
        simp only [Nat.add_zero, List.getD_cons_zero]
        rw [i3' _ (by omega)]
        exact m3 c hc
      | succ j =>
        simp only [List.length_cons] at hj
        have := i4' j c (by omega) hc
        rw [show st.edge_idx + (j + 1) = st.edge_idx + 1 + j by omega]
        simpa using this
    · have i5' : st'.num_set = r.2 + _ := i5
      have m4' : r.2 = st.num_set + _ := m4
      rw [i5', m4', List.map_cons, List.sum_cons]
      omega
    · have i6' : st'.edge_idx = st.edge_idx + 1 + rest.length := i6
      rw [i6', List.length_cons]; omega

/-- C17: after the pre-merge callback has sized `color_bv` to `E * C` zero bits and the visitor
has seen the `E` records in order, bit `i * C + c` is bit `c` of the mask of record `i`,
`num_set` is the number of set mask bits written, and every visitor call changes only the
bits `[edge_idx * C, (edge_idx + 1) * C)` of the record it is called on. -/
theorem colored_build_spec (num_colors : Nat) (records : List Nat) :
    ∃ st, colored_build num_colors records = some st ∧
      st.color_bv.length = records.length * num_colors ∧
      (∀ i c, i < records.length → c < num_colors →
        st.color_bv[i * num_colors + c]? = some ((records.getD i 0).testBit c)) ∧
      st.num_set = (records.map fun color =>
        (List.range num_colors).countP (fun c => color.testBit c)).sum ∧
      st.edge_idx = records.length ∧
      (∀ color s s', merge_visitor num_colors color s = some s' →
        ∀ p, (p < s.edge_idx * num_colors ∨ (s.edge_idx + 1) * num_colors ≤ p) →
          s'.color_bv[p]? = s.color_bv[p]?) := by
  obtain ⟨st, h1, h2, _, h4, h5, h6⟩ := visit_records_spec num_colors records
    (pre_merge num_colors records.length { color_bv := [], num_set := 0, edge_idx := 0 })
    (by simp [pre_merge])
  refine ⟨st, h1, ?_, ?_, ?_, ?_, ?_⟩
  · rw [h2]; simp [pre_merge]
  · intro i c hi hc
    have := h4 i c hi hc
    simpa [pre_merge] using this
  · rw [h5]; simp [pre_merge]
  · rw [h6]; simp [pre_merge]
  · intro color s s' h p hp
    exact (merge_visitor_some num_colors color s s' h).2.1 p hp

/-! ## rc_file -/

theorem rc_main_eq_map (get_rc : Char → Char) (reads : List (List Char))
    (hne : ∀ s ∈ reads, s ≠ []) :
    rc_main get_rc reads = reads.map (fun s => s.reverse.map get_rc) := by
  induction reads with
  | nil => rfl
  | cons s rest ih =>
    have hs : s ≠ [] := hne s (List.mem_cons_self _ _)
    have hlen : ¬ s.length = 0 := fun h => hs (List.length_eq_zero.1 h)
    have hrest : ∀ t ∈ rest, t ≠ [] := fun t ht => hne t (List.mem_cons_of_mem _ ht)
    rw [rc_main, if_neg hlen, ih hrest, List.map_cons]

theorem reverse_map_involutive (get_rc : Char → Char) (hinv : ∀ c, get_rc (get_rc c) = c)
    (s : List Char) : ((s.reverse.map get_rc).reverse.map get_rc) = s := by
  rw [← List.map_reverse, List.reverse_reverse, List.map_map]
  have : (get_rc ∘ get_rc) = id := funext hinv
  rw [this, List.map_id]

/-- Without a read of length 0: on a list of (non-empty) reads the utility writes, for every read in order, the
reversed read with every character complemented, and none is dropped; with a complement
table that is its own inverse, applying the utility twice gives the reads back unchanged. -/
theorem rc_main_spec (get_rc : Char → Char) (reads : List (List Char))
    (hne : ∀ s ∈ reads, s ≠ []) :
    rc_main get_rc reads = reads.map (fun s => s.reverse.map get_rc) ∧
    (rc_main get_rc reads).length = reads.length ∧
    ((∀ c, get_rc (get_rc c) = c) → rc_main get_rc (rc_main get_rc reads) = reads) := by
  have h1 := rc_main_eq_map get_rc reads hne
  refine ⟨h1, by rw [h1, List.length_map], fun hinv => ?_⟩
  have hne2 : ∀ s ∈ reads.map (fun s => s.reverse.map get_rc), s ≠ [] := by
    intro s hs
    obtain ⟨t, ht, rfl⟩ := List.mem_map.1 hs
    intro h
    have hlen := congrArg List.length h
    simp only [List.length_map, List.length_reverse, List.length_nil] at hlen
    exact hne t ht (List.length_eq_zero.1 hlen)
  rw [h1, rc_main_eq_map get_rc _ hne2, List.map_map]
  have : ((fun s => s.reverse.map get_rc) ∘ fun s => s.reverse.map get_rc)
      = (id : List Char → List Char) :=
    funext (reverse_map_involutive get_rc hinv)
  rw [this, List.map_id]

theorem dna_complement_involutive (c : Char) : dna_complement (dna_complement c) = c := by
  unfold dna_complement
  by_cases hA : c = 'A'
  · subst hA; decide
  · by_cases hT : c = 'T'
    · subst hT; decide
    · by_cases hC : c = 'C'
      · subst hC; decide
      · by_cases hG : c = 'G'
        · subst hG; decide
        · simp [hA, hT, hC, hG]

/-- Instance of `rc_main_spec` with the nucleotide complement on the reads `AC`, `GGT`. -/
theorem rc_main_spec_witness :
    rc_main dna_complement [['A', 'C'], ['G', 'G', 'T']] = [['G', 'T'], ['A', 'C', 'C']] ∧
    rc_main dna_complement (rc_main dna_complement [['A', 'C'], ['G', 'G', 'T']]) =
      [['A', 'C'], ['G', 'G', 'T']] := by
  have h := rc_main_spec dna_complement [['A', 'C'], ['G', 'G', 'T']] (by decide)
  exact ⟨by rw [h.1]; decide, h.2.2 dna_complement_involutive⟩

/-! ## cosmo-benchmark -/

/-- C19: a query whose k-mer is absent makes `index` give the empty optional, which the loop
dereferences all the same: here the second query is absent and the loop has no result, while
the loop over the first query alone completes. -/
theorem query_loop_absent_kmer :
    query_loop (fun s => if s = ['A', 'C', 'G'] then some (4, 4) else none)
      [['A', 'C', 'G'], ['A', 'A', 'A']] = none ∧
    query_loop (fun s => if s = ['A', 'C', 'G'] then some (4, 4) else none)
      [['A', 'C', 'G']] = some [(4, 4)] := by
  decide

/-! ## cosmo-pack -/

/-- C20: for `k = 4` and the reported k-mer `x = 1` the callback pushes `k - 1 = 3` dummies,
`(1, 3)`, `(1 << 2, 2)` and `(1 << 6, 1)`: the shift `x <<= i*2` is applied to the already
shifted value, so the third dummy is shifted by 3 symbols, not by 2 (`(1 << 4, 1)`). -/
theorem push_dummies_shift_accumulates :
    push_dummies 64 4 1 = [(1, 3), (4, 2), (64, 1)] ∧
    (push_dummies 64 4 1).length = 4 - 1 ∧
    (push_dummies 64 4 1)[2]? ≠ some (kmer_shl 64 1 (2 * 2), 4 - 2 - 1) := by
  decide


namespace debruijn_graph

/-! ## The next unflagged edge -/

/-- C21 (as stated): on the sample index (`E = 8`) the last edge is `i = 7`; for `x = A` the
rank of `with(A, 0) = 2` in `W[0..8)` is 1, so `r = 2` exceeds `maxRank[A] = 1` and there is no
unflagged `A`-edge after 7, but `_next_edge(7, A)` returns 7, not `E = 8`. -/
theorem next_edge_at_last_edge :
    sampleGraph.num_edges = 8 ∧
    rank sampleGraph.m_edges (7 + 1) (_with_edge_flag 1 false) = some 1 ∧
    sampleGraph.m_edge_max_ranks[1]? = some 1 ∧
    sampleGraph._next_edge 7 1 = some 7 ∧
    sampleGraph._next_edge 7 1 ≠ some sampleGraph.num_edges ∧
    (∀ x, x < sigma + 1 → sampleGraph._next_edge 7 x = some 7) := by
  decide

/-- C21 (amended): in an index with `|W| = |L| = E` and the max ranks of the constructor, for
an edge `i < E - 1` and a symbol `x ≤ sigma`, with `r = 1 + W.rank(i+1, with(x,0))`:
`_next_edge(i, x)` is `E` if `r > maxRank[x]`, and then no unflagged `x`-edge lies after `i`;
otherwise it is `W.select(r, with(x,0))`, the first unflagged `x`-edge after `i`. For
`i ≥ E - 1`, so at the last edge, it is `i` itself. -/
theorem next_edge_spec (G : debruijn_graph) (i x : Nat)
    (hlen : G.m_edges.length = G.m_node_flags.length)
    (hmax : G.m_edge_max_ranks = _init_max_ranks G.m_edges)
    (hx : x < sigma + 1) :
    (i + 1 < G.num_edges →
      ∃ r mx, rank G.m_edges (i + 1) (_with_edge_flag x false) = some r ∧
        G.m_edge_max_ranks[x]? = some mx ∧
        (mx < 1 + r →
          G._next_edge i x = some G.num_edges ∧
          ∀ p, i < p → G.m_edges[p]? ≠ some (_with_edge_flag x false)) ∧
        (¬ mx < 1 + r →
          ∃ p, select G.m_edges (1 + r) (_with_edge_flag x false) = some p ∧
            G._next_edge i x = some p ∧ i < p ∧ p < G.num_edges ∧
            G.m_edges[p]? = some (_with_edge_flag x false) ∧
            ∀ q, i < q → q < p → G.m_edges[q]? ≠ some (_with_edge_flag x false))) ∧
    (0 < G.num_edges → G.num_edges ≤ i + 1 → G._next_edge i x = some i) := by
  have hE : G.num_edges = G.m_node_flags.length := rfl
  constructor
  · intro hi
    have hiW : i + 1 ≤ G.m_edges.length := by omega
    have h1 : ¬ usub G.num_edges 1 ≤ i := by
      rw [usub_of_le (by omega)]; omega
    refine ⟨(G.m_edges.take (i + 1)).count (_with_edge_flag x false),
      G.m_edges.count (_with_edge_flag x false), rank_of_le _ _ _ hiW, ?_, ?_, ?_⟩
    · rw [hmax]; exact init_max_ranks_getElem? _ _ hx
    · intro h2
      constructor
      · unfold _next_edge
        rw [if_neg h1, Nat.add_comm 1 i]
        simp only [rank, hiW, if_true, hmax, init_max_ranks_getElem? _ _ hx,
          Option.bind_eq_bind, Option.some_bind, Option.pure_def]
        rw [if_pos h2]
      · intro p hp hW
        have a := count_take_succ_of_getElem? G.m_edges _ p hW
        have b := count_take_mono G.m_edges (_with_edge_flag x false) (show i + 1 ≤ p by omega)
        have c := count_take_le G.m_edges (_with_edge_flag x false) (p + 1)
        omega
    · intro h2
      obtain ⟨q, hq1, hq2⟩ := exists_occurrence G.m_edges (_with_edge_flag x false)
        (1 + (G.m_edges.take (i + 1)).count (_with_edge_flag x false)) (by omega) (by omega)
      have hqW := getElem?_eq_some_lt hq1
      have hiq : i + 1 ≤ q := occurrence_ge G.m_edges _ q (i + 1) hq1 (by omega)
      have hsel := (select_eq_some G.m_edges
        (1 + (G.m_edges.take (i + 1)).count (_with_edge_flag x false))
        (_with_edge_flag x false) q).2 ⟨hq1, hq2⟩
      refine ⟨q, hsel, ?_, by omega, by omega, hq1, ?_⟩
      · unfold _next_edge
        rw [if_neg h1, Nat.add_comm 1 i]
        simp only [rank, hiW, if_true, hmax, init_max_ranks_getElem? _ _ hx,
          Option.bind_eq_bind, Option.some_bind, Option.pure_def]
        rw [if_neg h2]
        exact hsel
      · intro p hp1 hp2 hW
        have a := count_take_succ_of_getElem? G.m_edges _ p hW
        have b := count_take_mono G.m_edges (_with_edge_flag x false) (show i + 1 ≤ p by omega)
        have c := count_take_mono G.m_edges (_with_edge_flag x false) (show p + 1 ≤ q by omega)
        omega
  · intro h0 hi
    unfold _next_edge
    rw [if_pos (by rw [usub_of_le (by omega)]; omega)]

/-- Instance of C21 (amended) on the sample index at edge 1 and the symbol `C`, where the
next unflagged `C`-edge is edge 2. -/
theorem next_edge_spec_witness :
    (sampleGraph.m_edges.length = sampleGraph.m_node_flags.length ∧
      sampleGraph.m_edge_max_ranks = _init_max_ranks sampleGraph.m_edges ∧
      sampleGraph._next_edge 1 2 = some 2) ∧
    (1 + 1 < sampleGraph.num_edges →
      ∃ r mx, rank sampleGraph.m_edges (1 + 1) (_with_edge_flag 2 false) = some r ∧
        sampleGraph.m_edge_max_ranks[2]? = some mx ∧
        (mx < 1 + r →
          sampleGraph._next_edge 1 2 = some sampleGraph.num_edges ∧
          ∀ p, 1 < p → sampleGraph.m_edges[p]? ≠ some (_with_edge_flag 2 false)) ∧
        (¬ mx < 1 + r →
          ∃ p, select sampleGraph.m_edges (1 + r) (_with_edge_flag 2 false) = some p ∧
            sampleGraph._next_edge 1 2 = some p ∧ 1 < p ∧ p < sampleGraph.num_edges ∧
            sampleGraph.m_edges[p]? = some (_with_edge_flag 2 false) ∧
            ∀ q, 1 < q → q < p → sampleGraph.m_edges[q]? ≠ some (_with_edge_flag 2 false))) ∧
    (0 < sampleGraph.num_edges → sampleGraph.num_edges ≤ 1 + 1 →
      sampleGraph._next_edge 1 2 = some 1) :=
  ⟨by decide, next_edge_spec sampleGraph 1 2 (by decide) (by decide) (by decide)⟩

/-! ## The block loop of the loader -/

/-- The bound `current_block < num_blocks` of the block loop only tells whether there is a
block at all: `current_block` stays 0, so two positive block counts give the same run. -/
theorem decode_loop_block_bound (cap : Nat) (unpack : Nat → Nat → Nat × Bool × Bool)
    (words : List Nat) (num_edges nb nb' : Nat) (h : 0 < nb) (h' : 0 < nb') :
    ∀ fuel current_edge pos (first : List Bool) (edges : List Nat),
      decode_loop cap unpack words num_edges nb fuel current_edge 0 pos first edges =
        decode_loop cap unpack words num_edges nb' fuel current_edge 0 pos first edges := by
  intro fuel
  induction fuel with
  | zero =>
    intro ce pos first edges
    unfold decode_loop
    simp only [h, h', and_true]
  | succ fuel ih =>
    intro ce pos first edges
    rw [decode_loop_succ, decode_loop_succ]
    simp only [h, h', and_true]
    by_cases hlt : ce < num_edges
    · rw [if_pos hlt, if_pos hlt]
      cases hw : words[pos]? with
      | none => rfl
      | some block => rw [Option.some_bind, Option.some_bind]; exact ih _ _ _ _
    · rw [if_neg hlt, if_neg hlt]

/-- C22: with a capacity of 12 entries per block, a decoder of 5-bit entries and an input of
one data block followed by the footer `F = [4, 5, 9, 13, 13]`, `k = 3` (so `E = 13` and
`num_blocks = 1`), the loop does not stop after the one block: edge 12 is decoded from the
first footer word (it changes with that word), 13 edges are decoded and not
`min(13, 1 * 12) = 12`, and on the data block alone the loop runs into a read past the end. -/
theorem decode_loop_reads_footer_word :
    usub [0, 4, 5, 9, 13, 13, 3].length (sigma + 2) = 1 ∧
    (load_from_packed_edges 12 sample_unpack [0, 4, 5, 9, 13, 13, 3] []).map
      (fun G => (G.m_edges.length, G.m_node_flags[12]?, G.m_edges[12]?)) =
      some (13, some (!(sample_unpack 4 0).2.1),
        some ((((sample_unpack 4 0).1 <<< 1) ||| (!(sample_unpack 4 0).2.2).toNat) % 256)) ∧
    (load_from_packed_edges 12 sample_unpack [0, 4, 5, 9, 13, 13, 3] []).map
      (fun G => G.m_edges[12]?) = some (some 3) ∧
    (load_from_packed_edges 12 sample_unpack [0, 8, 9, 9, 13, 13, 3] []).map
      (fun G => G.m_edges[12]?) = some (some 5) ∧
    decode_loop 12 sample_unpack [0] 13 1 13 0 0 0 (List.replicate 13 false)
      (List.replicate 13 0) = none ∧
    (decode_loop 12 sample_unpack [0] 12 1 12 0 0 0 (List.replicate 12 false)
      (List.replicate 12 0)).isSome = true ∧
    min 13 (1 * 12) ≠ 13 := by
  decide

/-! ## The rank given to `select` by the outgoing functions -/

/-- C23: on the second sample index node 4 (`AC`, edge range `[5, 5]`) has no `G`-edge. For
`c = with(G, 0) = 6` the rank in `W[0..5]` is 1 and the selected edge 3 is outside the range;
for `c = with(G, 1) = 7`, which does not occur in `W`, the rank is 0 and `W.select(0, 7)` is
called, outside the contract of `select`, by `outgoing`, `interval_node_outgoing` and
`_outgoing_edge_pair` alike. -/
theorem outgoing_select_rank_zero :
    WellFormed sampleGraph2 ∧
    4 < sampleGraph2.num_nodes ∧
    sampleGraph2._node_range 4 = some (5, 5) ∧
    rank sampleGraph2.m_edges (5 + 1) (_with_edge_flag 3 false) = some 1 ∧
    select sampleGraph2.m_edges 1 (_with_edge_flag 3 false) = some 3 ∧
    rank sampleGraph2.m_edges (5 + 1) (_with_edge_flag 3 true) = some 0 ∧
    sampleGraph2.m_edges.count (_with_edge_flag 3 true) = 0 ∧
    select sampleGraph2.m_edges 0 (_with_edge_flag 3 true) = none ∧
    sampleGraph2.outgoing 4 3 = none ∧
    sampleGraph2.interval_node_outgoing (5, 5) 3 = none ∧
    sampleGraph2._outgoing_edge_pair 5 5 3 = none := by
  decide

end debruijn_graph

namespace debruijn_graph

/-! ## Calls of `_backward` outside the contract of `select` -/

/-- C7: on the sample index node 6 (`GG`, first edge 7, last symbol `G`, one incoming edge
`CGG`) is the second node of the `G` block, so `_backward(7)` computes
`nth = _rank_distance(6, 8) = 2` and calls `W.select(3, with(G, 0))`, although `with(G, 0) = 6`
occurs only twice in `W`: the call is outside the contract of `select` and `indegree(6)`
returns no value. The same happens at the nodes 1 (`$A`) and 4 (`CC`). -/
theorem indegree_backward_out_of_contract :
    WellFormed sampleGraph ∧
    6 < sampleGraph.num_nodes ∧
    sampleGraph._node_to_edge 6 = some 7 ∧
    sampleGraph._symbol_access 7 = some 3 ∧
    sampleGraph._symbol_start 3 = some 6 ∧
    sampleGraph._rank_distance 6 (7 + 1) = some 2 ∧
    sampleGraph.m_edges.count (_with_edge_flag 3 false) = 2 ∧
    select sampleGraph.m_edges (2 + 1) (_with_edge_flag 3 false) = none ∧
    sampleGraph._backward 7 = none ∧
    sampleGraph.indegree 6 = none ∧
    sampleGraph.indegree 1 = none ∧
    sampleGraph.indegree 4 = none := by
  decide

/-- C14: on the sample index the node `$A` is `v = (2, 2)` with last symbol `A` and the one
predecessor edge `$$A`; `_backward(2)` computes `nth = _rank_distance(2, 3) = 1` and calls
`W.select(2, with(A, 0))`, although `with(A, 0) = 2` occurs only once in `W`: the call is
outside the contract of `select` and `all_preds(v)` returns no list. The same happens at the
nodes `(5, 5)` and `(7, 7)`. -/
theorem all_preds_backward_out_of_contract :
    WellFormed sampleGraph ∧
    sampleGraph._node_range 1 = some (2, 2) ∧
    sampleGraph._symbol_access 2 = some 1 ∧
    sampleGraph._symbol_start 1 = some 2 ∧
    sampleGraph._rank_distance 2 (2 + 1) = some 1 ∧
    sampleGraph.m_edges.count (_with_edge_flag 1 false) = 1 ∧
    select sampleGraph.m_edges (1 + 1) (_with_edge_flag 1 false) = none ∧
    sampleGraph._backward 2 = none ∧
    sampleGraph.all_preds (2, 2) = none ∧
    sampleGraph.all_preds (5, 5) = none ∧
    sampleGraph.all_preds (7, 7) = none := by
  decide

/-- C11: on the sample index (`k = 3`) node 1 (`$A`, first edge 2) has no label: the first
step reads `A` at edge 2 and then calls `_backward(2)`, which asks `W.select` for the second
occurrence of `with(A, 0) = 2`, a symbol that occurs once in `W`; the result of that call is
the edge of the second step. The nodes 2, 4 and 6 have no label either, and where a label is
returned it need not be the label of the node: node 3 (`AC`) gets `CC`. -/
theorem node_label_backward_out_of_contract :
    WellFormed sampleGraph ∧
    2 ≤ sampleGraph.k ∧
    1 < sampleGraph.num_nodes ∧
    sampleGraph._node_to_edge 1 = some 2 ∧
    sampleGraph._symbol_access 2 = some 1 ∧
    sampleGraph._rank_distance 2 (2 + 1) = some 1 ∧
    sampleGraph.m_edges.count (_with_edge_flag 1 false) = 1 ∧
    sampleGraph._backward 2 = none ∧
    sampleGraph.node_label 1 = none ∧
    (List.range 7).map sampleGraph.node_label =
      [some [0, 0], none, none, some [2, 2], none, some [3, 3], none] := by
  decide

end debruijn_graph

namespace debruijn_graph

/-! ## Incoming: a predecessor that is not found -/

theorem incoming_unfold (search : Nat → Nat → Nat → (Nat → Option Nat) → Option Int)
    (G : debruijn_graph) (v x : Nat) :
    incoming search G v x =
      if v < G.num_nodes then
        if x < sigma + 1 then
          (G._node_to_edge v).bind fun j => (G._symbol_access j).bind fun y =>
            if y = 0 then some (-1)
            else (G._backward j).bind fun i_first => (G._next_edge i_first y).bind fun i_last =>
              (rank G.m_edges i_first (_with_edge_flag y true)).bind fun base_rank =>
                (rank G.m_edges i_last (_with_edge_flag y true)).bind fun last_rank =>
                  (search 0 (usub (usub last_rank base_rank + 1) 1) x (fun i =>
                    (if i = 0 then some i_first
                      else select G.m_edges (base_rank + i) (_with_edge_flag y true)).bind
                      fun e => G._first_symbol e)).bind fun sub_idx =>
                    if sub_idx = -1 then some (-1)
                    else (if toSizeT sub_idx = 0 then some i_first
                        else select G.m_edges (base_rank + toSizeT sub_idx)
                          (_with_edge_flag y true)).bind fun e =>
                      (G._edge_to_node e).bind fun n => some (Int.ofNat n)
        else none
      else none := rfl

/-- The search of the examples keeps the contract of a search: it returns -1, or an index of
the range at which the sought value stands. -/
theorem sample_search_contract (lo hi x : Nat) (f : Nat → Option Nat) :
    sample_search lo hi x f = some (-1) ∨
      ∃ idx, sample_search lo hi x f = some (Int.ofNat idx) ∧ lo ≤ idx ∧ idx ≤ hi ∧
        f idx = some x := by
  unfold sample_search
  cases h : (List.range' lo (hi + 1 - lo)).find? (fun idx => f idx == some x) with
  | none => exact Or.inl rfl
  | some idx =>
    right
    have hp := List.find?_some h
    have hm := List.mem_of_find?_eq_some h
    rw [List.mem_range'_1] at hm
    exact ⟨idx, rfl, hm.1, by omega, by simpa using hp⟩

/-- C6: on the sample index node 1 (`$A`, last symbol `A`) has the `C`-edge 2, which leads to
the first edge 4 of node 3, so node 3 is `AC`; node 3 (last symbol `C`) has the `G`-edge 4,
which leads to the first edge 6 of node 5, so node 5 is `CG` and `AC = A·C` is its predecessor
by the symbol `A` (`outgoing(3, G) = 5`). With any search that keeps its contract,
`incoming(5, A)` returns -1 and `incoming(5, x)` is node 3 for no symbol `x`: `_backward(6)`
returns edge 6 itself instead of edge 4, and the one candidate the search is given is edge 6,
with first symbol `G`. -/
theorem incoming_misses_predecessor
    (search : Nat → Nat → Nat → (Nat → Option Nat) → Option Int)
    (hs : ∀ lo hi x f, search lo hi x f = some (-1) ∨
      ∃ idx, search lo hi x f = some (Int.ofNat idx) ∧ lo ≤ idx ∧ idx ≤ hi ∧ f idx = some x) :
    (WellFormed sampleGraph ∧
      sampleGraph._node_range 1 = some (2, 2) ∧
      sampleGraph._symbol_access 2 = some 1 ∧
      sampleGraph.m_edges[2]? = some (_with_edge_flag 2 false) ∧
      sampleGraph._forward 2 = some 4 ∧
      sampleGraph._node_range 3 = some (4, 4) ∧
      sampleGraph._symbol_access 4 = some 2 ∧
      sampleGraph.m_edges[4]? = some (_with_edge_flag 3 false) ∧
      sampleGraph._forward 4 = some 6 ∧
      sampleGraph._node_to_edge 5 = some 6 ∧
      sampleGraph.outgoing 3 3 = some 5 ∧
      sampleGraph._backward 6 = some 6 ∧
      sampleGraph._first_symbol 6 = some 3) ∧
    incoming search sampleGraph 5 1 = some (-1) ∧
    ∀ x, incoming search sampleGraph 5 x ≠ some 3 := by
  have hgen : ∀ x, x < sigma + 1 →
      incoming search sampleGraph 5 x = some (-1) ∨
        (x = 3 ∧ incoming search sampleGraph 5 x = some 5) := by
    intro x hx
    rw [incoming_unfold, if_pos (by decide), if_pos hx,
      show sampleGraph._node_to_edge 5 = some 6 by decide, Option.some_bind,
      show sampleGraph._symbol_access 6 = some 3 by decide, Option.some_bind,
      if_neg (by decide),
      show sampleGraph._backward 6 = some 6 by decide, Option.some_bind,
      show sampleGraph._next_edge 6 3 = some 8 by decide, Option.some_bind,
      show rank sampleGraph.m_edges 6 (_with_edge_flag 3 true) = some 1 by decide,
      Option.some_bind,
      show rank sampleGraph.m_edges 8 (_with_edge_flag 3 true) = some 1 by decide,
      Option.some_bind,
      show usub (usub 1 1 + 1) 1 = 0 by decide]
    rcases hs 0 0 x (fun i =>
        (if i = 0 then some 6
          else select sampleGraph.m_edges (1 + i) (_with_edge_flag 3 true)).bind
          fun e => sampleGraph._first_symbol e) with h | ⟨idx, h, _, hidx, hf⟩
    · left
      rw [h, Option.some_bind, if_pos rfl]
    · right
      have h0 : idx = 0 := by omega
      subst h0
      have hx3 : x = 3 := by
        have h6 : sampleGraph._first_symbol 6 = some 3 := by decide
        simp only [if_true, Option.some_bind, h6] at hf
        exact (Option.some.inj hf).symm
      refine ⟨hx3, ?_⟩
      rw [h, Option.some_bind, if_neg (by decide),
        if_pos (show toSizeT (Int.ofNat 0) = 0 by decide), Option.some_bind,
        show sampleGraph._edge_to_node 6 = some 5 by decide, Option.some_bind]
      rfl
  refine ⟨by decide, ?_, ?_⟩
  · rcases hgen 1 (by decide) with h | ⟨h, _⟩
    · exact h
    · exact absurd h (by decide)
  · intro x
    by_cases hx : x < sigma + 1
    · rcases hgen x hx with h | ⟨_, h⟩
      · rw [h]; decide
      · rw [h]; decide
    · rw [incoming_unfold, if_pos (by decide), if_neg hx]
      exact fun h => Option.noConfusion h

/-- Instance of C6 with the search of the examples. -/
theorem incoming_misses_predecessor_witness :
    incoming sample_search sampleGraph 5 1 = some (-1) ∧
    ∀ x, incoming sample_search sampleGraph 5 x ≠ some 3 :=
  (incoming_misses_predecessor sample_search sample_search_contract).2

end debruijn_graph

namespace debruijn_graph

/-! ## The edge label as the node label followed by the edge symbol -/

/-- C12 (amended): for every edge `i` of a well-formed index with `k ≥ 2`, with
`v = _edge_to_node(i)` and `w = W[i]`, the call `edge_label(i)` is the call `node_label(v)`
followed by the mapped symbol of `w`: it returns exactly when `node_label(v)` returns and the
symbol has a map, and its result is then that node label with the mapped symbol appended.
So the node label is the prefix of length `k - 1` of the edge label of length `k`. -/
theorem edge_label_node_label (G : debruijn_graph) (hwf : WellFormed G)
    (hnum : G.m_num_nodes = G.m_node_flags.count false)
    (hk : 2 ≤ G.k) (i : Nat) (hi : i < G.num_edges) :
    ∃ v w, G._edge_to_node i = some v ∧ G.m_edges[i]? = some w ∧
      G.edge_label i = (G.node_label v).bind (fun s =>
        (G._map_symbol (_strip_edge_flag w)).map fun m => s ++ [m]) ∧
      (G.edge_label i).isSome =
        ((G.node_label v).isSome && (G._map_symbol (_strip_edge_flag w)).isSome) ∧
      ∀ l, G.edge_label i = some l →
        l.length = G.k ∧ G.node_label v = some (l.take (G.k - 1)) := by
  obtain ⟨v, hv, hlab, hpre, hconv⟩ := edge_label_prefix G hwf hnum hk i hi
  have hiW : i < G.m_edges.length := by
    have : G.m_edges.length = G.m_node_flags.length := hwf.1
    have : G.num_edges = G.m_node_flags.length := rfl
    omega
  have heq : G.edge_label i = (G.node_label v).bind (fun s =>
      (G._map_symbol (_strip_edge_flag G.m_edges[i])).map fun m => s ++ [m]) := by
    rw [edge_label_eq G (by omega) i, hlab, List.getElem?_eq_getElem hiW]
    cases G.node_label_from_edge i with
    | none => rfl
    | some s =>
      rw [Option.some_bind, Option.some_bind, Option.some_bind]
      cases G._map_symbol (_strip_edge_flag G.m_edges[i]) with
      | none => rfl
      | some m => rfl
  refine ⟨v, G.m_edges[i], hv, List.getElem?_eq_getElem hiW, heq, ?_, hpre⟩
  rw [heq]
  cases G.node_label v with
  | none => rfl
  | some s =>
    cases G._map_symbol (_strip_edge_flag G.m_edges[i]) with
    | none => rfl
    | some m => rfl

/-- Instance of the amended C12 on the sample index at edge 4 (`ACG`), whose edge label is
returned. -/
theorem edge_label_node_label_witness :
    (WellFormed sampleGraph ∧ sampleGraph._edge_to_node 4 = some 3 ∧
      sampleGraph.node_label 3 = some [2, 2] ∧ sampleGraph.edge_label 4 = some [2, 2, 3]) ∧
    ∃ v w, sampleGraph._edge_to_node 4 = some v ∧ sampleGraph.m_edges[4]? = some w ∧
      sampleGraph.edge_label 4 = (sampleGraph.node_label v).bind (fun s =>
        (sampleGraph._map_symbol (_strip_edge_flag w)).map fun m => s ++ [m]) ∧
      (sampleGraph.edge_label 4).isSome =
        ((sampleGraph.node_label v).isSome &&
          (sampleGraph._map_symbol (_strip_edge_flag w)).isSome) ∧
      ∀ l, sampleGraph.edge_label 4 = some l →
        l.length = sampleGraph.k ∧ sampleGraph.node_label v = some (l.take (sampleGraph.k - 1)) :=
  ⟨by decide,
    edge_label_node_label sampleGraph (by decide) (by decide) (by decide) 4 (by decide)⟩

/-- With an alphabet of one character the symbol 1 is mapped to the null character, which
`operator[]` of a `const` string gives at `size()`: the edge label of edge 0 is returned. -/
theorem edge_label_null_character :
    (construct 3 sampleGraph.m_node_flags sampleGraph.m_edges sampleGraph.m_symbol_ends
      [36]).edge_label 0 = some [36, 36, 0] := by
  decide

end debruijn_graph

/-! ## rc_file: reads of length 0 -/

/-- The loop stops at the first read of length 0: what is written are the reads before it,
reversed and complemented. -/
theorem rc_main_eq_takeWhile (get_rc : Char → Char) (reads : List (List Char)) :
    rc_main get_rc reads =
      (reads.takeWhile (fun s => decide (s.length ≠ 0))).map
        (fun s => s.reverse.map get_rc) := by
  induction reads with
  | nil => rfl
  | cons s rest ih =>
    by_cases hlen : s.length = 0
    · rw [rc_main, if_pos hlen, List.takeWhile_cons_of_neg (by simp [hlen])]
      rfl
    · rw [rc_main, if_neg hlen, ih, List.takeWhile_cons_of_pos (by simp [hlen]), List.map_cons]

/-- C18: a read of length 0 makes `get_next_read_to_buffer` return 0, which the loop takes
for the end of the input: on the reads `AC`, (empty), `GGT` only the first read is written,
whatever the complement table is, so two reads are dropped and applying the utility twice
does not give the three reads back. -/
theorem rc_main_stops_at_empty_read :
    (∀ get_rc : Char → Char,
      rc_main get_rc [['A', 'C'], [], ['G', 'G', 'T']] = [[get_rc 'C', get_rc 'A']]) ∧
    rc_main dna_complement [['A', 'C'], [], ['G', 'G', 'T']] = [['G', 'T']] ∧
    (∀ get_rc : Char → Char,
      rc_main get_rc (rc_main get_rc [['A', 'C'], [], ['G', 'G', 'T']]) ≠
        [['A', 'C'], [], ['G', 'G', 'T']]) := by
  refine ⟨fun get_rc => rfl, by decide, fun get_rc h => ?_⟩
  have hlen := congrArg List.length h
  simp [rc_main] at hlen

/-- The runs of the utility in general: for every list of reads and every complement table
it writes, for each read in order up to the first read of length 0, the reversed read with every
character complemented, and drops the reads from the first empty read on; applying it twice
gives the reads before the first empty read with the table applied twice to every
character. So the two runs give the input back exactly when no read is empty and the table
is its own inverse on the characters of the reads. -/
theorem rc_main_total (get_rc : Char → Char) (reads : List (List Char)) :
    rc_main get_rc reads =
      (reads.takeWhile (fun s => decide (s.length ≠ 0))).map
        (fun s => s.reverse.map get_rc) ∧
    rc_main get_rc (rc_main get_rc reads) =
      (reads.takeWhile (fun s => decide (s.length ≠ 0))).map
        (fun s => s.map (fun c => get_rc (get_rc c))) ∧
    (rc_main get_rc (rc_main get_rc reads) = reads ↔
      (∀ s ∈ reads, s.length ≠ 0) ∧ ∀ s ∈ reads, ∀ c ∈ s, get_rc (get_rc c) = c) := by
  have h1 := rc_main_eq_takeWhile get_rc reads
  have hne : ∀ s ∈ (reads.takeWhile (fun s => decide (s.length ≠ 0))).map
      (fun s => s.reverse.map get_rc), s ≠ [] := by
    intro s hs
    obtain ⟨t, ht, rfl⟩ := List.mem_map.1 hs
    have := List.mem_takeWhile_imp ht
    intro h
    have hlen := congrArg List.length h
    simp only [List.length_map, List.length_reverse, List.length_nil] at hlen
    simp [hlen] at this
  have h2 : rc_main get_rc (rc_main get_rc reads) =
      (reads.takeWhile (fun s => decide (s.length ≠ 0))).map
        (fun s => s.map (fun c => get_rc (get_rc c))) := by
    rw [h1, rc_main_eq_map get_rc _ hne, List.map_map]
    apply List.map_congr_left
    intro s _
    simp [Function.comp, List.map_reverse]
  refine ⟨h1, h2, ?_⟩
  rw [h2]
  constructor
  · intro h
    have hlen : (reads.takeWhile (fun s => decide (s.length ≠ 0))).length = reads.length := by
      have := congrArg List.length h
      simpa using this
    have htw : reads.takeWhile (fun s => decide (s.length ≠ 0)) = reads := by
      have hpre := List.takeWhile_prefix (fun s : List Char => decide (s.length ≠ 0)) (l := reads)
      exact hpre.eq_of_length hlen
    have hall : ∀ s ∈ reads, s.length ≠ 0 := by
      intro s hs
      rw [← htw] at hs
      have := List.mem_takeWhile_imp hs
      simpa using this
    refine ⟨hall, ?_⟩
    rw [htw] at h
    intro s hs c hc
    have hmap : reads.map (fun s => s.map (fun c => get_rc (get_rc c))) = reads.map id := by
      rw [List.map_id]; exact h
    have hs' := List.map_inj_left.1 hmap s hs
    have hmap2 : s.map (fun c => get_rc (get_rc c)) = s.map id := by
      rw [List.map_id]; exact hs'
    exact List.map_inj_left.1 hmap2 c hc
  · rintro ⟨hall, hinv⟩
    have htw : reads.takeWhile (fun s => decide (s.length ≠ 0)) = reads := by
      rw [List.takeWhile_eq_self_iff]
      intro s hs
      simpa using hall s hs
    rw [htw]
    conv_rhs => rw [← List.map_id reads]
    apply List.map_congr_left
    intro s hs
    conv_rhs => rw [id, ← List.map_id s]
    apply List.map_congr_left
    intro c hc
    exact hinv s hs c hc

end Cosmo
